import Mathlib

/-!
Verification of the `blast` static file server (Bun/TypeScript) against its
natural-language specification.

Strings from the TypeScript source are modelled as `List Char` (`Str`), so
that every string operation of the source (`replace`, `split`, `join`,
`slice`, ...) becomes a structurally recursive, kernel-computable Lean
function.  The POSIX `path` module functions used by the source
(`normalize`, `join`, `resolve` with separator `/`) are modelled segment by
segment following Node's `normalizeString` algorithm; `resolve` takes the
process working directory `cwd` as an explicit parameter.
-/

set_option maxHeartbeats 1000000

abbrev Str := List Char

/-- ASCII lower-casing of a single character (model of JS `toLowerCase` for
the ASCII header names and file extensions appearing in the source). -/
def asciiLower (c : Char) : Char :=
  if 'A' ≤ c ∧ c ≤ 'Z' then Char.ofNat (c.toNat + 32) else c

/-- Lower-case a whole string. -/
def lowerStr (s : Str) : Str := s.map asciiLower

/-! ### Header maps

JS `Headers` objects normalize header names to lower case and are
last-write-wins per key; we model them as association lists whose keys are
stored lower-cased. -/

/-- `headers.get(name)` (case-insensitive). -/
def getHeader (hs : List (Str × Str)) (name : Str) : Option Str :=
  (hs.find? (fun kv => kv.1 == lowerStr name)).map (·.2)

/-- `headers.set(name, value)`: replace in place if present, else append. -/
def setHeader (hs : List (Str × Str)) (name value : Str) : List (Str × Str) :=
  let k := lowerStr name
  if hs.any (fun kv => kv.1 == k) then
    hs.map (fun kv => if kv.1 == k then (k, value) else kv)
  else
    hs ++ [(k, value)]

/-- `headers.delete(name)`. -/
def deleteHeader (hs : List (Str × Str)) (name : Str) : List (Str × Str) :=
  hs.filter (fun kv => kv.1 != lowerStr name)

/-! ### src/utils/path.ts -/

/-- Model of the regex replace `\/+` → `/` applied globally: collapse every
run of repeated `'/'` characters to a single one. -/
def collapseSlashes : Str → Str
  | [] => []
  | [c] => [c]
  | a :: b :: rest =>
    if a = '/' ∧ b = '/' then collapseSlashes (b :: rest)
    else a :: collapseSlashes (b :: rest)

/-- `normalizeUrlPath` from src/utils/path.ts: ensure a single leading
slash, collapse duplicate slashes, strip a trailing slash unless the path
is the root. -/
def normalizeUrlPath (urlPath : Str) : Str :=
  if urlPath = [] ∨ urlPath = ['/'] then ['/']
  else
    let normalized := '/' :: collapseSlashes (urlPath.dropWhile (· = '/'))
    if normalized.length > 1 ∧ normalized.getLast? = some '/' then
      normalized.dropLast
    else normalized

/-! ### Node's POSIX path module (`normalize`, `join`, `resolve`) -/

/-- Split a string at every `'/'` (keeping empty segments), as both
JS `split('/')` and Node's `normalizeString` scanning do. -/
def splitSlash : Str → List Str
  | [] => [[]]
  | c :: rest =>
    if c = '/' then [] :: splitSlash rest
    else
      match splitSlash rest with
      | [] => [[c]]
      | h :: t => (c :: h) :: t

/-- Join segments with `'/'`. -/
def intercalSlash : List Str → Str
  | [] => []
  | [s] => s
  | s :: rest => s ++ '/' :: intercalSlash rest

/-- One step of Node's `normalizeString`: process a single path segment
against the stack of segments resolved so far (head = most recent).
`allow` is Node's `allowAboveRoot` (true for relative paths). -/
def normStep (allow : Bool) (acc : List Str) (seg : Str) : List Str :=
  if seg = [] ∨ seg = ['.'] then acc
  else if seg = ['.', '.'] then
    match acc with
    | [] => if allow then [seg] else []
    | top :: rest =>
      if top = ['.', '.'] then (if allow then seg :: acc else acc) else rest
  else seg :: acc

/-- Node's `normalizeString` over a list of segments; the result stack has
its most recent segment first. -/
def normStack (allow : Bool) (segs : List Str) : List Str :=
  segs.foldl (normStep allow) []

/-- `path.posix.normalize`. -/
def posixNormalize (p : Str) : Str :=
  if p = [] then ['.']
  else
    let isAbs := p.head? = some '/'
    let trail := p.getLast? = some '/'
    let stack := (normStack (!isAbs) (splitSlash p)).reverse
    let body := intercalSlash stack
    if body = [] then
      if isAbs then ['/'] else if trail then ['.', '/'] else ['.']
    else
      (if isAbs then '/' :: body else body) ++ (if trail then ['/'] else [])

/-- `path.posix.join` restricted to two arguments, as used by the source. -/
def posixJoin (a b : Str) : Str :=
  let joined := if a = [] then b else if b = [] then a else a ++ '/' :: b
  if joined = [] then ['.'] else posixNormalize joined

/-- `path.posix.resolve` with one argument; `cwd` is the (absolute)
process working directory used when the argument is relative. -/
def posixResolve (cwd p : Str) : Str :=
  let full := if p.head? = some '/' then p else cwd ++ '/' :: p
  let stack := normStack false (splitSlash full)
  if stack = [] then ['/'] else '/' :: intercalSlash stack.reverse

/-- `resolveStaticPath` from src/utils/path.ts: strip leading slashes from
the URL path, join under the root, normalize. -/
def resolveStaticPath (rootDir urlPath : Str) : Str :=
  let normalizedPath := urlPath.dropWhile (· = '/')
  posixNormalize (posixJoin rootDir normalizedPath)

/-- `isPathUnderRoot` from src/utils/path.ts: resolve both sides, then a
string-prefix containment check aligned on the separator. -/
def isPathUnderRoot (cwd filePath rootDir : Str) : Bool :=
  let normalizedPath := posixResolve cwd filePath
  let normalizedRoot := posixResolve cwd rootDir
  normalizedPath == normalizedRoot ||
    (normalizedRoot.isPrefixOf normalizedPath &&
      (normalizedRoot.getLast? == some '/' ||
        normalizedPath[normalizedRoot.length]? == some '/'))

/-- Upper-case hex digit (used by `encodeURIComponent`). -/
def hexDigitU (n : Nat) : Char :=
  ("0123456789ABCDEF".data).getD n '0'

/-- UTF-8 bytes of a character. -/
def utf8BytesOf (c : Char) : List Nat :=
  let n := c.toNat
  if n < 128 then [n]
  else if n < 2048 then [192 + n / 64, 128 + n % 64]
  else if n < 65536 then [224 + n / 4096, 128 + n / 64 % 64, 128 + n % 64]
  else [240 + n / 262144, 128 + n / 4096 % 64, 128 + n / 64 % 64, 128 + n % 64]

/-- Characters left unescaped by JS `encodeURIComponent`. -/
def uriUnreserved (c : Char) : Bool :=
  ('A' ≤ c ∧ c ≤ 'Z') ∨ ('a' ≤ c ∧ c ≤ 'z') ∨ ('0' ≤ c ∧ c ≤ '9') ∨
    c ∈ ['-', '_', '.', '!', '~', '*', Char.ofNat 39, '(', ')']

/-- JS `encodeURIComponent`: percent-encode the UTF-8 bytes of every
character outside the unreserved set. -/
def encodeURIComponent (s : Str) : Str :=
  s.foldr
    (fun c acc =>
      (if uriUnreserved c then [c]
       else (utf8BytesOf c).foldr
         (fun b acc2 => '%' :: hexDigitU (b / 16) :: hexDigitU (b % 16) :: acc2)
         []) ++ acc)
    []

/-- Index of the last `'/'` in a string (JS `lastIndexOf('/')`), `none`
when absent. -/
def lastIndexOfSlash (s : Str) : Option Nat :=
  (s.reverse.findIdx? (· = '/')).map (fun i => s.length - 1 - i)

/-- `createDirectoryUrl` from src/utils/path.ts. -/
def createDirectoryUrl (currentUrlPath dirName : Str) : Str :=
  let base := if currentUrlPath.getLast? = some '/' then currentUrlPath
    else currentUrlPath ++ ['/']
  base ++ encodeURIComponent dirName ++ ['/']

/-- `createFileUrl` from src/utils/path.ts. -/
def createFileUrl (currentUrlPath fileName : Str) : Str :=
  let base := if currentUrlPath.getLast? = some '/' then currentUrlPath
    else currentUrlPath ++ ['/']
  base ++ encodeURIComponent fileName

/-- `getParentDirectoryUrl` from src/utils/path.ts. -/
def getParentDirectoryUrl (urlPath : Str) : Option Str :=
  if urlPath = ['/'] ∨ urlPath = [] then none
  else
    let path := if urlPath.getLast? = some '/' then urlPath.dropLast else urlPath
    match lastIndexOfSlash path with
    | none => some ['/']
    | some idx => if idx = 0 then some ['/'] else some (path.take idx ++ ['/'])

/-! ### src/utils/mime.ts -/

/-- The MIME table from src/utils/mime.ts. -/
def mimeTypes : List (Str × Str) :=
  [(".html".data, "text/html".data),
   (".css".data, "text/css".data),
   (".js".data, "application/javascript".data),
   (".json".data, "application/json".data),
   (".png".data, "image/png".data),
   (".jpg".data, "image/jpeg".data),
   (".gif".data, "image/gif".data),
   (".svg".data, "image/svg+xml".data),
   (".wav".data, "audio/wav".data),
   (".mp4".data, "video/mp4".data),
   (".woff".data, "application/font-woff".data),
   (".ttf".data, "application/font-ttf".data),
   (".eot".data, "application/vnd.ms-fontobject".data),
   (".otf".data, "application/font-otf".data),
   (".wasm".data, "application/wasm".data),
   (".jsx".data, "text/jsx".data),
   (".tsx".data, "application/typescript".data),
   (".md".data, "text/markdown".data),
   (".webmanifest".data, "application/manifest+json".data)]

/-- `getMimeType` from src/utils/mime.ts: table lookup on the lower-cased
extension with the octet-stream default. -/
def getMimeType (ext : Str) : Str :=
  match mimeTypes.find? (fun kv => kv.1 == lowerStr ext) with
  | some kv => kv.2
  | none => "application/octet-stream".data

/-- Index of the last occurrence of a character. -/
def lastIndexOfChar (c : Char) (s : Str) : Option Nat :=
  (s.reverse.findIdx? (· = c)).map (fun i => s.length - 1 - i)

/-- Node `path.extname`: extension of the basename, empty for dotfiles and
for the special names `.` and `..`. -/
def extname (p : Str) : Str :=
  let base := match lastIndexOfChar '/' p with
    | none => p
    | some i => p.drop (i + 1)
  if base = ['.'] ∨ base = ['.', '.'] then []
  else
    match lastIndexOfChar '.' base with
    | none => []
    | some j => if j = 0 then [] else base.drop j

/-! ### Hexadecimal rendering (JS `Number.toString(16)`) and the ETag -/

/-- Lower-case hex digit. -/
def hexDigitL (n : Nat) : Char :=
  ("0123456789abcdef".data).getD n '0'

/-- Fueled hex rendering (structural recursion so the kernel can
evaluate it); `toHexNat` supplies sufficient fuel. -/
def hexAux : Nat → Nat → Str → Str
  | 0, _, acc => acc
  | fuel + 1, n, acc =>
    if n < 16 then hexDigitL n :: acc
    else hexAux fuel (n / 16) (hexDigitL (n % 16) :: acc)

/-- `n.toString(16)` for a natural number. -/
def toHexNat (n : Nat) : Str := hexAux (n + 1) n []

/-- `m.toString(16)` for a JS integer (negative values render with a
leading minus sign). -/
def jsIntHex (m : Int) : Str :=
  if m < 0 then '-' :: toHexNat m.natAbs else toHexNat m.toNat

/-- The ETag built by `serveFile`:
`` W/"<size hex>-<mtime ms hex>" ``. -/
def etagOf (size : Nat) (mtimeMs : Int) : Str :=
  'W' :: '/' :: '"' :: (toHexNat size ++ '-' :: (jsIntHex mtimeMs ++ ['"']))

/-! ### Date rendering (JS `Date.toUTCString`) -/

/-- Decimal rendering of a natural number. -/
def natToDec (n : Nat) : Str := (Nat.repr n).data

/-- Decimal rendering of an integer. -/
def intToDec (m : Int) : Str :=
  if m < 0 then '-' :: natToDec m.natAbs else natToDec m.toNat

/-- Zero-padded two-digit decimal. -/
def pad2 (n : Nat) : Str := if n < 10 then '0' :: natToDec n else natToDec n

/-- Civil date from days since 1970-01-01 (Howard Hinnant's algorithm). -/
def civilFromDays (z0 : Int) : Int × Nat × Nat :=
  let z := z0 + 719468
  let era := z.fdiv 146097
  let doe := (z - era * 146097).toNat
  let yoe := (doe - doe / 1460 + doe / 36524 - doe / 146096) / 365
  let doy := doe - (365 * yoe + yoe / 4 - yoe / 100)
  let mp := (5 * doy + 2) / 153
  let d := doy - (153 * mp + 2) / 5 + 1
  let m := if mp < 10 then mp + 3 else mp - 9
  ((yoe : Int) + era * 400 + (if m ≤ 2 then 1 else 0), m, d)

/-- Weekday names, `0` = Sunday. -/
def weekdayName (n : Nat) : Str :=
  (["Sun".data, "Mon".data, "Tue".data, "Wed".data, "Thu".data, "Fri".data,
    "Sat".data]).getD n []

/-- Month names, `1` = January. -/
def monthName (n : Nat) : Str :=
  (["Jan".data, "Feb".data, "Mar".data, "Apr".data, "May".data, "Jun".data,
    "Jul".data, "Aug".data, "Sep".data, "Oct".data, "Nov".data,
    "Dec".data]).getD (n - 1) []

/-- JS `Date.toUTCString` from milliseconds since the epoch, e.g.
`Thu, 01 Jan 1970 00:00:00 GMT`. -/
def toUTCString (ms : Int) : Str :=
  let days := ms.fdiv 86400000
  let msod := (ms - days * 86400000).toNat
  let ymd := civilFromDays days
  let wd := ((days + 4).emod 7).toNat
  weekdayName wd ++ ", ".data ++ pad2 ymd.2.2 ++ [' '] ++ monthName ymd.2.1 ++
    [' '] ++ intToDec ymd.1 ++ [' '] ++ pad2 (msod / 3600000) ++ [':'] ++
    pad2 (msod / 60000 % 60) ++ [':'] ++ pad2 (msod / 1000 % 60) ++
    " GMT".data

/-! ### Filesystem model and HTTP responses -/

/-- What `fs.stat` reports a path to be. -/
inductive FKind
  | file
  | dir
  | other
deriving DecidableEq

/-- The stat fields the handler consumes. -/
structure FileStat where
  kind : FKind
  size : Nat
  mtimeMs : Int
deriving DecidableEq

/-- The filesystem collaborator: `stat` fails with an error-code string
(the handler distinguishes `ENOENT`), `readdir` lists entry names,
`readFile` is `Bun.file`'s content. -/
structure FS where
  stat : Str → Except Str FileStat
  readdir : Str → Except Str (List Str)
  readFile : Str → Str

/-- `existsSync`: whether `stat` succeeds. -/
def existsSync (fs : FS) (p : Str) : Bool :=
  match fs.stat p with
  | Except.ok _ => true
  | Except.error _ => false

/-- An HTTP response: status, headers (keys stored lower-cased), and an
optional body (`none` models a `null` body). -/
structure HResponse where
  status : Nat := 200
  headers : List (Str × Str) := []
  body : Option Str := none
deriving DecidableEq

/-- `HandlerOptions` from src/handler.ts. -/
structure HandlerOptions where
  enableSPA : Bool := false
  enableDirectoryListing : Bool := false

/-- `serveFile` from src/handler.ts (the `content` argument stands for the
bytes `Bun.file(filePath)` would stream). -/
def serveFile (filePath : Str) (content : Str) (stats : FileStat)
    (method : Str) : HResponse :=
  let ext := lowerStr (extname filePath)
  let contentType := getMimeType ext
  let h1 := setHeader [] ("Content-Type".data) contentType
  let h2 := setHeader h1 ("Last-Modified".data) (toUTCString stats.mtimeMs)
  let h3 := setHeader h2 ("ETag".data) (etagOf stats.size stats.mtimeMs)
  if method = "HEAD".data then
    { status := 200,
      headers := setHeader h3 ("Content-Length".data) (natToDec stats.size),
      body := none }
  else
    { status := 200, headers := h3, body := some content }

/-! ### Directory listings and the handler (src/handler.ts) -/

/-- The record `serveDirectory` builds per entry.  `sizeBytes` and
`mtimeMs` carry the raw stat values; their float/locale string formatting
(`formatSize`, `toISOString`/`toLocaleString`) is pure presentation and is
folded into the abstract renderer below. -/
structure DirEntry where
  name : Str
  path : Str
  sizeBytes : Nat
  mtimeMs : Int
  mimeType : Str
  isDirectory : Bool

/-- Code-point comparison of names (model of `a.localeCompare(b)`;
returns a negative, zero or positive integer). -/
def lexCmp : Str → Str → Int
  | [], [] => 0
  | [], _ :: _ => -1
  | _ :: _, [] => 1
  | a :: as, b :: bs =>
    if a < b then -1 else if b < a then 1 else lexCmp as bs

/-- The comparator passed to `files.sort` in `serveDirectory`:
directories first, then names. -/
def dirCmp (a b : DirEntry) : Int :=
  if a.isDirectory ∧ ¬b.isDirectory then -1
  else if ¬a.isDirectory ∧ b.isDirectory then 1
  else lexCmp a.name b.name

/-- Stable insertion by a JS-style comparator (an element is placed after
every earlier element that does not compare strictly greater). -/
def sortInsert (cmp : DirEntry → DirEntry → Int) (a : DirEntry) :
    List DirEntry → List DirEntry
  | [] => [a]
  | b :: l => if cmp a b < 0 then a :: b :: l else b :: sortInsert cmp a l

/-- Stable sort by a JS-style comparator (model of `Array.prototype.sort`,
which is stable). -/
def sortByCmp (cmp : DirEntry → DirEntry → Int) (l : List DirEntry) :
    List DirEntry :=
  l.foldl (fun acc a => sortInsert cmp a acc) []

/-- Collaborator (spec §1 excludes directory-listing HTML templating from
the core): abstract rendering of the ordered entries produced by
`generateDirectoryListing`, listing the parent link, the path and the
entry names in order. -/
def renderListing (path : Str) (files : List DirEntry)
    (parent : Option Str) : Str :=
  (match parent with
   | some par => par ++ ['\n']
   | none => []) ++ path ++ ['\n'] ++
    files.foldr (fun f acc => f.name ++ '\n' :: acc) []

/-- `serveDirectory` from src/handler.ts, instrumented: the second
component lists every path handed to a filesystem operation
(`readdir dirPath`, then `stat` of each joined entry path). -/
def serveDirectory (fs : FS) (dirPath urlPath : Str) :
    HResponse × List Str :=
  match fs.readdir dirPath with
  | Except.error _ =>
    ({ status := 500, headers := [], body := some ("Internal Server Error".data) },
      [dirPath])
  | Except.ok entries =>
    let recs := entries.filterMap (fun entry =>
      match fs.stat (posixJoin dirPath entry) with
      | Except.error _ => none
      | Except.ok st =>
        let isDir := st.kind = FKind.dir
        some { name := entry,
               path := if isDir then createDirectoryUrl urlPath entry
                 else createFileUrl urlPath entry,
               sizeBytes := st.size,
               mtimeMs := st.mtimeMs,
               mimeType := if isDir then "directory".data
                 else getMimeType (extname entry),
               isDirectory := isDir })
    let files := sortByCmp dirCmp recs
    let parent := getParentDirectoryUrl urlPath
    ({ status := 200,
       headers := setHeader [] ("Content-Type".data)
         ("text/html; charset=utf-8".data),
       body := some (renderListing urlPath files parent) },
      dirPath :: entries.map (fun e => posixJoin dirPath e))

/-- The 404 response of src/handler.ts. -/
def resp404 : HResponse :=
  { status := 404,
    headers := setHeader [] ("Content-Type".data) ("text/plain".data),
    body := some ("Not Found".data) }

/-- The 405 response of src/handler.ts. -/
def resp405 : HResponse :=
  { status := 405,
    headers := setHeader [] ("Allow".data) ("GET, HEAD".data),
    body := some ("Method Not Allowed".data) }

/-- The 403 response of src/handler.ts. -/
def resp403 : HResponse :=
  { status := 403, headers := [], body := some ("Forbidden".data) }

/-- The 301 directory redirect of src/handler.ts. -/
def resp301 (location : Str) : HResponse :=
  { status := 301,
    headers := setHeader (setHeader (setHeader [] ("Location".data) location)
        ("Content-Type".data) ("text/plain".data))
      ("Content-Length".data) ['0'],
    body := none }

/-- `handler` from src/handler.ts, instrumented: besides the response it
returns, in order, every path it hands to a filesystem operation
(`stat`, `existsSync`, `readdir`, or a `Bun.file` read on GET). -/
def handler (cwd : Str) (fs : FS) (rootDir requestPath0 method : Str)
    (options : HandlerOptions) : HResponse × List Str :=
  if ¬(method = "GET".data ∨ method = "HEAD".data) then (resp405, [])
  else
    let requestPath := normalizeUrlPath requestPath0
    let filePath := resolveStaticPath rootDir requestPath
    if ¬(isPathUnderRoot cwd filePath rootDir = true) then (resp403, [])
    else
      match fs.stat filePath with
      | Except.ok stats =>
        if stats.kind = FKind.file then
          (serveFile filePath (fs.readFile filePath) stats method,
            filePath :: (if method = "GET".data then [filePath] else []))
        else if stats.kind = FKind.dir then
          if ¬(requestPath.getLast? = some '/') then
            (resp301 (requestPath ++ ['/']), [filePath])
          else
            let indexPath := posixJoin filePath ("index.html".data)
            if existsSync fs indexPath then
              match fs.stat indexPath with
              | Except.ok ist =>
                (serveFile indexPath (fs.readFile indexPath) ist method,
                  filePath :: indexPath :: indexPath ::
                    (if method = "GET".data then [indexPath] else []))
              | Except.error _ =>
                if options.enableDirectoryListing then
                  let r := serveDirectory fs filePath requestPath
                  (r.1, filePath :: indexPath :: indexPath :: r.2)
                else (resp404, [filePath, indexPath, indexPath])
            else
              if options.enableDirectoryListing then
                let r := serveDirectory fs filePath requestPath
                (r.1, filePath :: indexPath :: r.2)
              else (resp404, [filePath, indexPath])
        else (resp404, [filePath])
      | Except.error code =>
        if options.enableSPA ∧ code = "ENOENT".data then
          let indexPath := posixJoin rootDir ("index.html".data)
          if existsSync fs indexPath then
            match fs.stat indexPath with
            | Except.ok ist =>
              (serveFile indexPath (fs.readFile indexPath) ist method,
                filePath :: indexPath :: indexPath ::
                  (if method = "GET".data then [indexPath] else []))
            | Except.error _ => (resp404, [filePath, indexPath, indexPath])
          else (resp404, [filePath, indexPath])
        else (resp404, [filePath])

/-! ### Middleware-level request/response model

`BunRequest.url` is the *full* request URL string (scheme, host, path and
query), which is what `src/middleware/cache.ts` uses as its key.  Response
bodies are single-consumption streams; `bodyId` names the underlying
stream, and `Response.clone()` is modelled by handing out a fresh stream
identifier from a counter. -/

structure MRequest where
  method : Str
  url : Str
  headers : List (Str × Str) := []

structure MResponse where
  status : Nat := 200
  statusText : Str := []
  headers : List (Str × Str) := []
  body : Str := []
  bodyId : Nat := 0
deriving DecidableEq

/-- `Response.ok`: status in the 200–299 range. -/
def MResponse.isOkResp (r : MResponse) : Bool :=
  200 ≤ r.status ∧ r.status < 300

/-- `Response.clone()`: a copy of the response whose body is an
independently readable stream (a fresh identifier from the counter). -/
def cloneResp (r : MResponse) (fresh : Nat) : MResponse × Nat :=
  ({ r with bodyId := fresh }, fresh + 1)

/-! ### src/middleware/cache.ts -/

/-- One entry of the module-level `memoryCache` map. -/
structure CacheEntry where
  data : MResponse
  expires : Int
deriving DecidableEq

/-- A JS `Map` in insertion order. -/
abbrev CacheMap := List (Str × CacheEntry)

/-- `Map.get`. -/
def mapGet (m : CacheMap) (k : Str) : Option CacheEntry :=
  (m.find? (fun kv => kv.1 == k)).map (·.2)

/-- `Map.delete`. -/
def mapDelete (m : CacheMap) (k : Str) : CacheMap :=
  m.filter (fun kv => kv.1 != k)

/-- `Map.set`: an existing key is updated in place (its insertion position
is kept); a new key is appended at the tail. -/
def mapSet (m : CacheMap) (k : Str) (v : CacheEntry) : CacheMap :=
  if m.any (fun kv => kv.1 == k) then
    m.map (fun kv => if kv.1 == k then (k, v) else kv)
  else m ++ [(k, v)]

/-- `map.keys().next().value`: the first (oldest-inserted) key. -/
def mapOldestKey (m : CacheMap) : Str :=
  match m with
  | [] => []
  | kv :: _ => kv.1

/-- `CacheOptions` from src/middleware/cache.ts. -/
structure CacheOptions where
  maxAge : Int := 0
  maxSize : Nat := 100

/-- The mutable state closed over by every `cache()` middleware: the
single module-level `memoryCache` map, plus the fresh-stream counter used
to model `Response.clone()`. -/
structure CacheWorld where
  map : CacheMap := []
  nextBodyId : Nat := 0
deriving DecidableEq

/-- One invocation of the middleware returned by `cache(options)`.
Returns the updated shared state, the emitted response, and whether the
downstream continuation `next` was invoked. -/
def cacheStep (opts : CacheOptions) (w : CacheWorld) (req : MRequest)
    (now : Int) (next : Unit → MResponse) : CacheWorld × MResponse × Bool :=
  if ¬(req.method = "GET".data) ∨ opts.maxAge ≤ 0 then (w, next (), true)
  else
    let cacheKey := req.url
    let hitEntry := match mapGet w.map cacheKey with
      | some c => if c.expires > now then some c else none
      | none => none
    match hitEntry with
    | some cached =>
      let m1 := mapSet (mapDelete w.map cacheKey) cacheKey cached
      let cl := cloneResp cached.data w.nextBodyId
      ({ map := m1, nextBodyId := cl.2 }, cl.1, false)
    | none =>
      let response := next ()
      if response.isOkResp then
        let cl := cloneResp response w.nextBodyId
        let m1 := mapSet w.map cacheKey
          { data := cl.1, expires := now + opts.maxAge * 1000 }
        let m2 := if m1.length > opts.maxSize then
            mapDelete m1 (mapOldestKey m1)
          else m1
        ({ map := m2, nextBodyId := cl.2 }, response, true)
      else (w, response, true)

/-! ### src/middleware/compression.ts -/

/-- JS `hay.includes(needle)`: substring containment. -/
def jsIncludes (hay needle : Str) : Bool :=
  match hay with
  | [] => needle.isPrefixOf []
  | _ :: t => needle.isPrefixOf hay || jsIncludes t needle

/-- `CompressionOptions` with the source's default compressible types. -/
structure CompressionOptions where
  level : Nat := 6
  types : List Str :=
    ["text/plain".data, "text/html".data, "text/css".data,
     "text/javascript".data, "application/javascript".data,
     "application/json".data, "application/xml".data,
     "image/svg+xml".data]

/-- One invocation of the middleware returned by `compression(options)`,
applied to the response already produced by `next()`.  `brotli` and `gzip`
are the `node:zlib` collaborators.  The second component records whether
the middleware consumed the downstream response's body stream
(`await response.arrayBuffer()`); when the branch returns the original
`response` object after that, its body is exhausted for the caller. -/
def compressionStep (brotli gzip : Str → Str) (opts : CompressionOptions)
    (req : MRequest) (response : MResponse) (freshId : Nat) :
    MResponse × Bool :=
  let acceptEncoding := (getHeader req.headers ("Accept-Encoding".data)).getD []
  let contentType := (getHeader response.headers ("Content-Type".data)).getD []
  let shouldCompress := opts.types.any (fun t => jsIncludes contentType t)
  if ¬(shouldCompress = true) then (response, false)
  else
    let body := response.body
    if jsIncludes acceptEncoding ("br".data) then
      ({ status := response.status, statusText := response.statusText,
         headers := deleteHeader
           (setHeader response.headers ("Content-Encoding".data) ("br".data))
           ("Content-Length".data),
         body := brotli body, bodyId := freshId }, true)
    else if jsIncludes acceptEncoding ("gzip".data) then
      ({ status := response.status, statusText := response.statusText,
         headers := deleteHeader
           (setHeader response.headers ("Content-Encoding".data) ("gzip".data))
           ("Content-Length".data),
         body := gzip body, bodyId := freshId }, true)
    else (response, true)

/-! ### src/middleware/cors.ts -/

/-- `origin` may be a single string or an array of origins. -/
inductive OriginCfg
  | str (s : Str)
  | arr (l : List Str)

/-- `CorsOptions` with the source's defaults. -/
structure CorsOptions where
  origin : OriginCfg := OriginCfg.str ['*']
  methods : List Str :=
    ["GET".data, "HEAD".data, "PUT".data, "PATCH".data, "POST".data,
     "DELETE".data]
  allowedHeaders : List Str := []
  exposedHeaders : List Str := []
  credentials : Bool := false
  maxAge : Nat := 86400

/-- JS `array.join(', ')`. -/
def joinCommaSpace : List Str → Str
  | [] => []
  | [s] => s
  | s :: rest => s ++ ',' :: ' ' :: joinCommaSpace rest

/-- The `Access-Control-Allow-Origin` value computed per request: exact
match against a configured list echoes the request origin, otherwise the
first configured origin (an empty configured list yields JS
`String(undefined)`). -/
def corsOriginValue (opts : CorsOptions) (requestOrigin : Str) : Str :=
  match opts.origin with
  | OriginCfg.str s => s
  | OriginCfg.arr l =>
    if l.contains requestOrigin then requestOrigin
    else l.headD ("undefined".data)

/-- One invocation of the middleware returned by `cors(options)`: a
preflight OPTIONS request short-circuits with 204, any other request gets
the CORS headers applied to the downstream response.  The second
component records whether `next` was invoked. -/
def corsStep (opts : CorsOptions) (req : MRequest)
    (next : Unit → MResponse) : MResponse × Bool :=
  let requestOrigin := (getHeader req.headers ("Origin".data)).getD []
  let originValue := corsOriginValue opts requestOrigin
  let methodsString := joinCommaSpace opts.methods
  let exposedHeadersString :=
    if opts.exposedHeaders.length ≠ 0 then joinCommaSpace opts.exposedHeaders
    else []
  let allowedHeadersString :=
    if opts.allowedHeaders.length ≠ 0 then joinCommaSpace opts.allowedHeaders
    else []
  if req.method = "OPTIONS".data then
    let h1 := setHeader [] ("Access-Control-Allow-Origin".data) originValue
    let h2 := if opts.credentials then
        setHeader h1 ("Access-Control-Allow-Credentials".data) ("true".data)
      else h1
    let h3 := if exposedHeadersString ≠ [] then
        setHeader h2 ("Access-Control-Expose-Headers".data) exposedHeadersString
      else h2
    let h4 := setHeader h3 ("Access-Control-Allow-Methods".data) methodsString
    let h5 := match getHeader req.headers ("Access-Control-Request-Headers".data) with
      | some requestHeaders =>
        setHeader h4 ("Access-Control-Allow-Headers".data)
          (if allowedHeadersString ≠ [] then allowedHeadersString
           else requestHeaders)
      | none => h4
    let h6 := setHeader h5 ("Access-Control-Max-Age".data) (natToDec opts.maxAge)
    ({ status := 204, statusText := [], headers := h6, body := [],
       bodyId := 0 }, false)
  else
    let response := next ()
    let h1 := setHeader response.headers ("Access-Control-Allow-Origin".data)
      originValue
    let h2 := if opts.credentials then
        setHeader h1 ("Access-Control-Allow-Credentials".data) ("true".data)
      else h1
    let h3 := if exposedHeadersString ≠ [] then
        setHeader h2 ("Access-Control-Expose-Headers".data) exposedHeadersString
      else h2
    ({ response with headers := h3 }, true)

/-! ### Verification-support definitions -/

/-- No two adjacent `'/'` characters. -/
def noDS : Str → Bool
  | a :: b :: r => if a = '/' ∧ b = '/' then false else noDS (b :: r)
  | _ => true

/-- A well-formed directory-entry name: nonempty, separator-free, and not
one of the special names `.` and `..` (what a real `readdir` returns). -/
def isCleanSeg (s : Str) : Bool :=
  s ≠ [] ∧ '/' ∉ s ∧ s ≠ ['.'] ∧ s ≠ ['.', '.']

/-- Well-formedness of the filesystem collaborator: `readdir` only
returns well-formed entry names. -/
def FS.WF (fs : FS) : Prop :=
  ∀ p l, fs.readdir p = Except.ok l → ∀ e ∈ l, isCleanSeg e = true

/-- Appending one path segment below an already-resolved absolute path
(the closed form of `resolve (join q s)` proved below). -/
def appendSegR (r s : Str) : Str :=
  if r = ['/'] then '/' :: s else r ++ '/' :: s

/-- The segment stack computed by `posixResolve` before it is rendered
back into a string (head = deepest segment). -/
def resStack (cwd p : Str) : List Str :=
  normStack false
    (splitSlash (if p.head? = some '/' then p else cwd ++ '/' :: p))

/-- The sixteen lower-case hex digit characters. -/
def hexCharsL : List Char :=
  "0123456789abcdef".data

/-- Prepend a pending run of non-slash characters onto the first segment
of a segment list (the shape `splitSlash` produces while scanning). -/
def consHeadW (w : Str) : List Str → List Str
  | [] => [w]
  | h :: t => (w ++ h) :: t

/-! # Theorems

## Slash-collapsing lemmas (towards claim C7) -/

theorem collapse_head? : ∀ l : Str, (collapseSlashes l).head? = l.head? := by
  intro l
  induction l with
  | nil => rfl
  | cons a t ih =>
    cases t with
    | nil => rfl
    | cons b r =>
      simp only [collapseSlashes]
      split
      · rename_i h
        rw [ih]
        simp [h.1, h.2]
      · rfl

theorem collapse_ne_nil {l : Str} (h : l ≠ []) : collapseSlashes l ≠ [] := by
  intro hc
  have hh := collapse_head? l
  rw [hc] at hh
  cases l with
  | nil => exact h rfl
  | cons a t => simp at hh

theorem noDS_cons_of {a : Char} {l : Str} (h1 : noDS l = true)
    (h2 : ∀ b, l.head? = some b → ¬(a = '/' ∧ b = '/')) :
    noDS (a :: l) = true := by
  cases l with
  | nil => rfl
  | cons b r =>
    simp only [noDS]
    rw [if_neg (h2 b rfl)]
    exact h1

theorem noDS_collapse : ∀ l : Str, noDS (collapseSlashes l) = true := by
  intro l
  induction l with
  | nil => rfl
  | cons a t ih =>
    cases t with
    | nil => rfl
    | cons b r =>
      simp only [collapseSlashes]
      split
      · exact ih
      · rename_i hab
        refine noDS_cons_of ih ?_
        intro c hc
        rw [collapse_head? (b :: r)] at hc
        simp at hc
        subst hc
        exact hab

theorem collapse_of_noDS : ∀ l : Str, noDS l = true → collapseSlashes l = l := by
  intro l
  induction l with
  | nil => intro _; rfl
  | cons a t ih =>
    intro h
    cases t with
    | nil => rfl
    | cons b r =>
      simp only [noDS] at h
      split at h
      · simp at h
      · rename_i hab
        simp only [collapseSlashes]
        rw [if_neg hab, ih h]

theorem noDS_tail {a : Char} {l : Str} (h : noDS (a :: l) = true) :
    noDS l = true := by
  cases l with
  | nil => rfl
  | cons b r =>
    simp only [noDS] at h
    split at h
    · simp at h
    · exact h

theorem noDS_dropLast : ∀ l : Str, noDS l = true → noDS l.dropLast = true := by
  intro l
  induction l with
  | nil => intro _; rfl
  | cons a t ih =>
    intro h
    cases t with
    | nil => rfl
    | cons b r =>
      cases r with
      | nil => rfl
      | cons c r' =>
        have h2 := noDS_tail h
        have hab : ¬(a = '/' ∧ b = '/') := by
          simp only [noDS] at h
          by_contra hc
          rw [if_pos hc] at h
          simp at h
        show noDS (a :: (b :: c :: r').dropLast) = true
        refine noDS_cons_of (ih h2) ?_
        intro d hd
        simp only [List.dropLast] at hd
        simp at hd
        subst hd
        exact hab

theorem noDS_append_pair :
    ∀ (w : Str) (a b : Char), noDS (w ++ [a, b]) = true → ¬(a = '/' ∧ b = '/') := by
  intro w
  induction w with
  | nil =>
    intro a b h hab
    rw [List.nil_append] at h
    simp only [noDS, if_pos hab] at h
    exact Bool.noConfusion h
  | cons x w ih =>
    intro a b h
    cases hw : w ++ [a, b] with
    | nil => simp at hw
    | cons y z =>
      rw [List.cons_append, hw] at h
      simp only [noDS] at h
      split at h
      · simp at h
      · exact ih a b (hw ▸ h)

theorem dropWhile_head_ne :
    ∀ (l : Str) (c : Char), (l.dropWhile (· = '/')).head? = some c → c ≠ '/' := by
  intro l
  induction l with
  | nil => intro c h; simp [List.dropWhile] at h
  | cons a t ih =>
    intro c h
    rw [List.dropWhile_cons] at h
    split at h
    · exact ih c h
    · rename_i ha
      simp at h ha
      subst h
      exact ha

theorem dropWhile_of_head_ne {l : Str} (h : l.head? ≠ some '/') :
    l.dropWhile (· = '/') = l := by
  cases l with
  | nil => rfl
  | cons a t =>
    rw [List.dropWhile_cons, if_neg]
    simp at h
    simp [h]

theorem dropLast_cons_ne_nil {a : Char} {t : Str} (h : t ≠ []) :
    (a :: t).dropLast = a :: t.dropLast := by
  cases t with
  | nil => exact absurd rfl h
  | cons b r => rfl

theorem getLast?_cons_ne_nil {a : Char} {t : Str} (h : t ≠ []) :
    (a :: t).getLast? = t.getLast? := by
  cases t with
  | nil => exact absurd rfl h
  | cons b r => rfl

theorem normalizeUrlPath_shape (p : Str) :
    normalizeUrlPath p = ['/'] ∨
      ∃ t, normalizeUrlPath p = '/' :: t ∧ t ≠ [] ∧ t.head? ≠ some '/' ∧
        noDS t = true ∧ t.getLast? ≠ some '/' := by
  by_cases h0 : p = [] ∨ p = ['/']
  · left
    rcases h0 with rfl | rfl <;> rfl
  · have key : normalizeUrlPath p =
        (if ('/' :: collapseSlashes (p.dropWhile (· = '/'))).length > 1 ∧
            ('/' :: collapseSlashes (p.dropWhile (· = '/'))).getLast? = some '/'
          then ('/' :: collapseSlashes (p.dropWhile (· = '/'))).dropLast
          else '/' :: collapseSlashes (p.dropWhile (· = '/'))) := by
      simp only [normalizeUrlPath, if_neg h0]
    by_cases h1 : p.dropWhile (· = '/') = []
    · left
      rw [key, h1]
      rfl
    · have htne : collapseSlashes (p.dropWhile (· = '/')) ≠ [] :=
        collapse_ne_nil h1
      have hhead : (collapseSlashes (p.dropWhile (· = '/'))).head? ≠ some '/' := by
        rw [collapse_head?]
        intro hc
        exact dropWhile_head_ne p '/' hc rfl
      have hnds := noDS_collapse (p.dropWhile (· = '/'))
      by_cases h2 : (collapseSlashes (p.dropWhile (· = '/'))).getLast? = some '/'
      · have hcond : ('/' :: collapseSlashes (p.dropWhile (· = '/'))).length > 1 ∧
            ('/' :: collapseSlashes (p.dropWhile (· = '/'))).getLast? = some '/' := by
          constructor
          · cases hc : collapseSlashes (p.dropWhile (· = '/')) with
            | nil => exact absurd hc htne
            | cons x r => simp
          · rw [getLast?_cons_ne_nil htne]
            exact h2
        rw [key, if_pos hcond, dropLast_cons_ne_nil htne]
        right
        refine ⟨(collapseSlashes (p.dropWhile (· = '/'))).dropLast, rfl, ?_, ?_, ?_, ?_⟩
        · cases hc : collapseSlashes (p.dropWhile (· = '/')) with
          | nil => exact absurd hc htne
          | cons x r =>
            cases r with
            | nil =>
              rw [hc] at hhead h2
              simp at hhead h2
              exact absurd h2 hhead
            | cons y r' => simp [List.dropLast]
        · cases hc : collapseSlashes (p.dropWhile (· = '/')) with
          | nil => exact absurd hc htne
          | cons x r =>
            cases r with
            | nil =>
              rw [hc] at hhead h2
              simp at hhead h2
              exact absurd h2 hhead
            | cons y r' =>
              rw [hc] at hhead
              simpa using hhead
        · exact noDS_dropLast _ hnds
        · intro hlast
          have hdne : (collapseSlashes (p.dropWhile (· = '/'))).dropLast ≠ [] := by
            cases hc : collapseSlashes (p.dropWhile (· = '/')) with
            | nil => exact absurd hc htne
            | cons x r =>
              cases r with
              | nil =>
                rw [hc] at hhead h2
                simp at hhead h2
                exact absurd h2 hhead
              | cons y r' => simp [List.dropLast]
          have e1 : (collapseSlashes (p.dropWhile (· = '/'))).dropLast =
              ((collapseSlashes (p.dropWhile (· = '/'))).dropLast).dropLast ++ ['/'] := by
            have hsplit := List.dropLast_append_getLast hdne
            have hlast' := hlast
            rw [List.getLast?_eq_getLast _ hdne] at hlast'
            have hg : ((collapseSlashes (p.dropWhile (· = '/'))).dropLast).getLast hdne = '/' :=
              Option.some.inj hlast'
            rw [hg] at hsplit
            exact hsplit.symm
          have e2 : collapseSlashes (p.dropWhile (· = '/')) =
              (collapseSlashes (p.dropWhile (· = '/'))).dropLast ++ ['/'] := by
            have hsplit := List.dropLast_append_getLast htne
            have h2' := h2
            rw [List.getLast?_eq_getLast _ htne] at h2'
            have hg : (collapseSlashes (p.dropWhile (· = '/'))).getLast htne = '/' :=
              Option.some.inj h2'
            rw [hg] at hsplit
            exact hsplit.symm
          have e3 : collapseSlashes (p.dropWhile (· = '/')) =
              ((collapseSlashes (p.dropWhile (· = '/'))).dropLast).dropLast ++
                ['/', '/'] := by
            rw [e2]
            rw [e1]
            simp
          exact noDS_append_pair _ '/' '/' (e3 ▸ hnds) ⟨rfl, rfl⟩
      · have hcond : ¬(('/' :: collapseSlashes (p.dropWhile (· = '/'))).length > 1 ∧
            ('/' :: collapseSlashes (p.dropWhile (· = '/'))).getLast? = some '/') := by
          intro hc
          rw [getLast?_cons_ne_nil htne] at hc
          exact h2 hc.2
        rw [key, if_neg hcond]
        right
        exact ⟨collapseSlashes (p.dropWhile (· = '/')), rfl, htne, hhead, hnds, h2⟩

theorem normalizeUrlPath_fixed (q : Str)
    (h : q = ['/'] ∨ ∃ t, q = '/' :: t ∧ t ≠ [] ∧ t.head? ≠ some '/' ∧
      noDS t = true ∧ t.getLast? ≠ some '/') :
    normalizeUrlPath q = q := by
  rcases h with rfl | ⟨t, rfl, htne, hh, hnds, hlast⟩
  · rfl
  · have hq0 : ¬('/' :: t = [] ∨ '/' :: t = ['/']) := by
      simp [htne]
    have hdw : ('/' :: t).dropWhile (· = '/') = t := by
      rw [List.dropWhile_cons, if_pos (by simp)]
      exact dropWhile_of_head_ne hh
    have hcond : ¬(('/' :: collapseSlashes (('/' :: t).dropWhile (· = '/'))).length > 1 ∧
        ('/' :: collapseSlashes (('/' :: t).dropWhile (· = '/'))).getLast? = some '/') := by
      rw [hdw, collapse_of_noDS t hnds]
      intro hc
      rw [getLast?_cons_ne_nil htne] at hc
      exact hlast hc.2
    simp only [normalizeUrlPath, if_neg hq0, if_neg hcond]
    rw [hdw, collapse_of_noDS t hnds]

/-- C7: `normalizeUrlPath` is idempotent — for every input string `p`,
`normalizeUrlPath (normalizeUrlPath p) = normalizeUrlPath p`. -/
theorem normalizeUrlPath_idempotent (p : Str) :
    normalizeUrlPath (normalizeUrlPath p) = normalizeUrlPath p :=
  normalizeUrlPath_fixed _ (normalizeUrlPath_shape p)

/-! ## Header-map lemmas -/

theorem find?_map_replace (t : List (Str × Str)) (lk v k' : Str) (h : k' ≠ lk) :
    ((t.map (fun kv => if kv.1 == lk then (lk, v) else kv)).find?
        (fun kv => kv.1 == k'))
      = t.find? (fun kv => kv.1 == k') := by
  induction t with
  | nil => rfl
  | cons kv t ih =>
    simp only [List.map_cons]
    by_cases hkv : kv.1 = lk
    · have hval : (if (kv.1 == lk) = true then (lk, v) else kv) = (lk, v) := by
        simp [hkv]
      rw [hval]
      rw [List.find?_cons_of_neg _ (by
          simp only [beq_iff_eq]
          exact fun hc => h hc.symm),
        List.find?_cons_of_neg _ (by
          simp only [beq_iff_eq, hkv]
          exact fun hc => h hc.symm)]
      exact ih
    · have hval : (if (kv.1 == lk) = true then (lk, v) else kv) = kv := by
        simp [hkv]
      rw [hval]
      by_cases hm : kv.1 = k'
      · rw [List.find?_cons_of_pos _ (by simpa using hm),
          List.find?_cons_of_pos _ (by simpa using hm)]
      · rw [List.find?_cons_of_neg _ (by simpa using hm),
          List.find?_cons_of_neg _ (by simpa using hm)]
        exact ih

theorem find?_map_replace_self (t : List (Str × Str)) (lk v : Str)
    (hany : t.any (fun kv => kv.1 == lk) = true) :
    ((t.map (fun kv => if kv.1 == lk then (lk, v) else kv)).find?
        (fun kv => kv.1 == lk))
      = some (lk, v) := by
  induction t with
  | nil => simp at hany
  | cons kv t ih =>
    simp only [List.map_cons]
    by_cases hkv : kv.1 = lk
    · have hval : (if (kv.1 == lk) = true then (lk, v) else kv) = (lk, v) := by
        simp [hkv]
      rw [hval, List.find?_cons_of_pos _ (by simp)]
    · have hval : (if (kv.1 == lk) = true then (lk, v) else kv) = kv := by
        simp [hkv]
      rw [hval, List.find?_cons_of_neg _ (by simpa using hkv)]
      refine ih ?_
      simp only [List.any_cons, Bool.or_eq_true] at hany
      rcases hany with hh | ht
      · exact absurd (by simpa using hh) hkv
      · exact ht

theorem getHeader_setHeader_self (hs : List (Str × Str)) (k v : Str) :
    getHeader (setHeader hs k v) k = some v := by
  unfold getHeader setHeader
  by_cases hany : hs.any (fun kv => kv.1 == lowerStr k) = true
  · rw [if_pos hany, find?_map_replace_self hs (lowerStr k) v hany]
    rfl
  · rw [if_neg hany, List.find?_append]
    have hnone : hs.find? (fun kv => kv.1 == lowerStr k) = none := by
      rw [List.find?_eq_none]
      intro x hx hbx
      exact hany (List.any_eq_true.mpr ⟨x, hx, hbx⟩)
    rw [hnone]
    simp

theorem getHeader_setHeader_other (hs : List (Str × Str)) {k k' : Str}
    (v : Str) (h : lowerStr k' ≠ lowerStr k) :
    getHeader (setHeader hs k v) k' = getHeader hs k' := by
  unfold getHeader setHeader
  by_cases hany : hs.any (fun kv => kv.1 == lowerStr k) = true
  · rw [if_pos hany, find?_map_replace hs (lowerStr k) v (lowerStr k') h]
  · rw [if_neg hany, List.find?_append]
    cases hf : hs.find? (fun kv => kv.1 == lowerStr k') with
    | some kv => simp
    | none =>
      have h2 : List.find? (fun kv => kv.1 == lowerStr k') [(lowerStr k, v)] = none := by
        rw [List.find?_cons_of_neg _ (by
          simp only [beq_iff_eq]
          exact fun hc => h hc.symm)]
        rfl
      simp [h2]

theorem getHeader_deleteHeader_self (hs : List (Str × Str)) (k : Str) :
    getHeader (deleteHeader hs k) k = none := by
  unfold getHeader deleteHeader
  have : (hs.filter (fun kv => kv.1 != lowerStr k)).find?
      (fun kv => kv.1 == lowerStr k) = none := by
    rw [List.find?_eq_none]
    intro x hx hbx
    obtain ⟨hmem, hpred⟩ := List.mem_filter.mp hx
    have hx1 : x.1 ≠ lowerStr k := by simpa using hpred
    exact hx1 (by simpa using hbx)
  rw [this]
  rfl

theorem getHeader_deleteHeader_other (hs : List (Str × Str)) {k k' : Str}
    (h : lowerStr k' ≠ lowerStr k) :
    getHeader (deleteHeader hs k) k' = getHeader hs k' := by
  unfold getHeader deleteHeader
  congr 1
  induction hs with
  | nil => rfl
  | cons kv t ih =>
    by_cases hkv : kv.1 = lowerStr k
    · rw [List.filter_cons_of_neg (by simp [bne, hkv])]
      rw [List.find?_cons_of_neg _ (by
        simp only [beq_iff_eq, hkv]
        exact fun hc => h hc.symm)]
      exact ih
    · rw [List.filter_cons_of_pos (by simp [bne, hkv])]
      by_cases hm : kv.1 = lowerStr k'
      · rw [List.find?_cons_of_pos _ (by simpa using hm),
          List.find?_cons_of_pos _ (by simpa using hm)]
      · rw [List.find?_cons_of_neg _ (by simpa using hm),
          List.find?_cons_of_neg _ (by simpa using hm)]
        exact ih

/-! ## Hexadecimal rendering and the ETag (towards C8) -/

theorem hexAux_append :
    ∀ (fuel n : Nat) (acc : Str), hexAux fuel n acc = hexAux fuel n [] ++ acc := by
  intro fuel
  induction fuel with
  | zero => intro n acc; rfl
  | succ f ih =>
    intro n acc
    by_cases h : n < 16
    · simp [hexAux, h]
    · simp only [hexAux, if_neg h]
      rw [ih (n / 16) (hexDigitL (n % 16) :: acc),
        ih (n / 16) [hexDigitL (n % 16)]]
      simp

theorem hexAux_fuel_irrel :
    ∀ (f f' n : Nat) (acc : Str), n < f → n < f' →
      hexAux f n acc = hexAux f' n acc := by
  intro f
  induction f with
  | zero => intro f' n acc h; omega
  | succ g ih =>
    intro f' n acc h h'
    cases f' with
    | zero => omega
    | succ g' =>
      by_cases h16 : n < 16
      · simp [hexAux, h16]
      · simp only [hexAux, if_neg h16]
        have hdiv : n / 16 < n := Nat.div_lt_self (by omega) (by omega)
        exact ih g' (n / 16) _ (by omega) (by omega)

theorem toHexNat_of_lt {n : Nat} (h : n < 16) : toHexNat n = [hexDigitL n] := by
  simp [toHexNat, hexAux, h]

theorem toHexNat_of_ge {n : Nat} (h : 16 ≤ n) :
    toHexNat n = toHexNat (n / 16) ++ [hexDigitL (n % 16)] := by
  have hdiv : n / 16 < n := Nat.div_lt_self (by omega) (by omega)
  show hexAux (n + 1) n [] = _
  simp only [hexAux, if_neg (by omega : ¬n < 16)]
  rw [hexAux_append, hexAux_fuel_irrel n (n / 16 + 1) (n / 16) []
    (by omega) (by omega)]
  rfl

theorem toHexNat_ne_nil (n : Nat) : toHexNat n ≠ [] := by
  by_cases h : n < 16
  · rw [toHexNat_of_lt h]
    simp
  · rw [toHexNat_of_ge (by omega)]
    simp

theorem hexDigitL_mem (d : Nat) : hexDigitL d ∈ hexCharsL := by
  by_cases h : d < 16
  · interval_cases d <;> decide
  · have : hexDigitL d = '0' := by
      unfold hexDigitL
      rw [List.getD_eq_default]
      simp only [List.length]
      omega
    rw [this]
    decide

theorem mem_toHexNat (n : Nat) : ∀ c ∈ toHexNat n, c ∈ hexCharsL := by
  induction n using Nat.strong_induction_on with
  | _ n ih =>
    intro c hc
    by_cases h : n < 16
    · rw [toHexNat_of_lt h] at hc
      simp at hc
      subst hc
      exact hexDigitL_mem n
    · rw [toHexNat_of_ge (by omega)] at hc
      rcases List.mem_append.mp hc with hl | hr
      · exact ih (n / 16) (Nat.div_lt_self (by omega) (by omega)) c hl
      · simp at hr
        subst hr
        exact hexDigitL_mem (n % 16)

theorem toHexNat_no_dash (n : Nat) : ∀ c ∈ toHexNat n, c ≠ '-' := by
  intro c hc hdash
  have := mem_toHexNat n c hc
  subst hdash
  revert this
  decide

theorem hexDigitL_inj :
    ∀ a : Nat, a < 16 → ∀ b : Nat, b < 16 → hexDigitL a = hexDigitL b → a = b := by
  decide

theorem toHexNat_inj : ∀ a b : Nat, toHexNat a = toHexNat b → a = b := by
  intro a
  induction a using Nat.strong_induction_on with
  | _ a ih =>
    intro b h
    by_cases ha : a < 16 <;> by_cases hb : b < 16
    · rw [toHexNat_of_lt ha, toHexNat_of_lt hb] at h
      exact hexDigitL_inj a ha b hb (by injection h)
    · rw [toHexNat_of_lt ha, @toHexNat_of_ge b (by omega)] at h
      have hlen : (toHexNat (b / 16)).length + 1 = 1 := by
        simpa using (congrArg List.length h).symm
      have hpos := List.length_pos.mpr (toHexNat_ne_nil (b / 16))
      omega
    · rw [@toHexNat_of_ge a (by omega), toHexNat_of_lt hb] at h
      have hlen : (toHexNat (a / 16)).length + 1 = 1 := by
        simpa using congrArg List.length h
      have hpos := List.length_pos.mpr (toHexNat_ne_nil (a / 16))
      omega
    · rw [@toHexNat_of_ge a (by omega), @toHexNat_of_ge b (by omega)] at h
      have := List.append_inj' h rfl
      obtain ⟨h1, h2⟩ := this
      have hdiv : a / 16 = b / 16 :=
        ih (a / 16) (Nat.div_lt_self (by omega) (by omega)) (b / 16) h1
      have hmod : a % 16 = b % 16 :=
        hexDigitL_inj _ (Nat.mod_lt _ (by omega)) _ (Nat.mod_lt _ (by omega))
          (by injection h2)
      omega

theorem jsIntHex_inj : ∀ a b : Int, jsIntHex a = jsIntHex b → a = b := by
  intro a b h
  unfold jsIntHex at h
  by_cases ha : a < 0 <;> by_cases hb : b < 0
  · rw [if_pos ha, if_pos hb] at h
    have := toHexNat_inj _ _ (by injection h)
    omega
  · rw [if_pos ha, if_neg hb] at h
    have : '-' ∈ toHexNat b.toNat := by
      rw [← h]
      simp
    exact absurd rfl (toHexNat_no_dash _ '-' this)
  · rw [if_neg ha, if_pos hb] at h
    have : '-' ∈ toHexNat a.toNat := by
      rw [h]
      simp
    exact absurd rfl (toHexNat_no_dash _ '-' this)
  · rw [if_neg ha, if_neg hb] at h
    have := toHexNat_inj _ _ h
    omega

theorem split_at_dash :
    ∀ (l1 : Str) (l2 m1 m2 : Str), (∀ c ∈ l1, c ≠ '-') → (∀ c ∈ l2, c ≠ '-') →
      l1 ++ '-' :: m1 = l2 ++ '-' :: m2 → l1 = l2 ∧ m1 = m2 := by
  intro l1
  induction l1 with
  | nil =>
    intro l2 m1 m2 h1 h2 h
    cases l2 with
    | nil =>
      simp at h
      exact ⟨rfl, h⟩
    | cons d l2' =>
      simp at h
      exact absurd h.1.symm (h2 d (by simp))
  | cons c l1' ih =>
    intro l2 m1 m2 h1 h2 h
    cases l2 with
    | nil =>
      simp at h
      exact absurd h.1 (h1 c (by simp))
    | cons d l2' =>
      simp only [List.cons_append, List.cons.injEq] at h
      obtain ⟨rfl, h⟩ := h
      have := ih l2' m1 m2 (fun x hx => h1 x (by simp [hx]))
        (fun x hx => h2 x (by simp [hx])) h
      exact ⟨by rw [this.1], this.2⟩

theorem etagOf_inj :
    ∀ (s1 : Nat) (m1 : Int) (s2 : Nat) (m2 : Int),
      etagOf s1 m1 = etagOf s2 m2 → s1 = s2 ∧ m1 = m2 := by
  intro s1 m1 s2 m2 h
  unfold etagOf at h
  simp only [List.cons.injEq, true_and] at h
  have hsplit := split_at_dash (toHexNat s1) (toHexNat s2)
    (jsIntHex m1 ++ ['"']) (jsIntHex m2 ++ ['"'])
    (toHexNat_no_dash s1) (toHexNat_no_dash s2) h
  have hs := toHexNat_inj _ _ hsplit.1
  have hm := List.append_inj' hsplit.2 rfl
  exact ⟨hs, jsIntHex_inj _ _ hm.1⟩

/-- C8: the ETag emitted when serving a file is a weak validator (it
begins with `W/`) and a deterministic, injective function of the pair
(file size, modification time): `serveFile` always sets the `ETag` header
to `etagOf size mtime`, so equal (size, mtime) pairs yield byte-identical
tags, and `etagOf s1 m1 = etagOf s2 m2` forces `s1 = s2` and `m1 = m2`. -/
theorem serveFile_etag_weak_injective (filePath content : Str) (kind : FKind)
    (s1 : Nat) (m1 : Int) (method : Str) (s2 : Nat) (m2 : Int)
    (heq : etagOf s1 m1 = etagOf s2 m2) :
    getHeader (serveFile filePath content ⟨kind, s1, m1⟩ method).headers
        ("ETag".data) = some (etagOf s1 m1) ∧
      (['W', '/'].isPrefixOf (etagOf s1 m1)) = true ∧
      s1 = s2 ∧ m1 = m2 := by
  refine ⟨?_, ?_, etagOf_inj s1 m1 s2 m2 heq⟩
  · unfold serveFile
    by_cases hm : method = "HEAD".data
    · rw [if_pos hm]
      dsimp only
      rw [getHeader_setHeader_other _ _ (by decide)]
      exact getHeader_setHeader_self _ _ _
    · rw [if_neg hm]
      dsimp only
      exact getHeader_setHeader_self _ _ _
  · unfold etagOf
    simp [List.isPrefixOf]

/-- Witness for C8 at size 5, mtime 7. -/
theorem serveFile_etag_weak_injective_witness :
    etagOf 5 7 = etagOf 5 7 ∧
      (getHeader (serveFile ("/r/a.html".data) [] ⟨FKind.file, 5, 7⟩
          ("GET".data)).headers ("ETag".data) = some (etagOf 5 7) ∧
        (['W', '/'].isPrefixOf (etagOf 5 7)) = true ∧
        5 = 5 ∧ (7 : Int) = 7) :=
  ⟨rfl, serveFile_etag_weak_injective ("/r/a.html".data) [] FKind.file 5 7
    ("GET".data) 5 7 rfl⟩

/-! ## Cache lemmas (claims C3, C5, C6, C9) -/

theorem cacheStep_pass {opts : CacheOptions} {w : CacheWorld} {req : MRequest}
    {now : Int} {next : Unit → MResponse}
    (h : ¬(req.method = "GET".data) ∨ opts.maxAge ≤ 0) :
    cacheStep opts w req now next = (w, next (), true) := by
  unfold cacheStep
  rw [if_pos h]

theorem cacheStep_hit {opts : CacheOptions} {w : CacheWorld} {req : MRequest}
    {now : Int} {next : Unit → MResponse} {c : CacheEntry}
    (hm : req.method = "GET".data) (ha : 0 < opts.maxAge)
    (hc : mapGet w.map req.url = some c) (he : now < c.expires) :
    cacheStep opts w req now next =
      ({ map := mapSet (mapDelete w.map req.url) req.url c,
         nextBodyId := w.nextBodyId + 1 },
        { c.data with bodyId := w.nextBodyId }, false) := by
  have hcond : ¬(¬(req.method = "GET".data) ∨ opts.maxAge ≤ 0) := by
    push_neg
    exact ⟨hm, by omega⟩
  unfold cacheStep
  rw [if_neg hcond]
  simp only [hc, if_pos he]
  rfl

theorem cacheStep_miss_store {opts : CacheOptions} {w : CacheWorld}
    {req : MRequest} {now : Int} {next : Unit → MResponse}
    (hm : req.method = "GET".data) (ha : 0 < opts.maxAge)
    (hmiss : ∀ c, mapGet w.map req.url = some c → c.expires ≤ now)
    (hok : (next ()).isOkResp = true) :
    cacheStep opts w req now next =
      ({ map :=
           if (mapSet w.map req.url
               ⟨{ next () with bodyId := w.nextBodyId },
                 now + opts.maxAge * 1000⟩).length > opts.maxSize then
             mapDelete
               (mapSet w.map req.url
                 ⟨{ next () with bodyId := w.nextBodyId },
                   now + opts.maxAge * 1000⟩)
               (mapOldestKey
                 (mapSet w.map req.url
                   ⟨{ next () with bodyId := w.nextBodyId },
                     now + opts.maxAge * 1000⟩))
           else
             mapSet w.map req.url
               ⟨{ next () with bodyId := w.nextBodyId },
                 now + opts.maxAge * 1000⟩,
         nextBodyId := w.nextBodyId + 1 }, next (), true) := by
  have hcond : ¬(¬(req.method = "GET".data) ∨ opts.maxAge ≤ 0) := by
    push_neg
    exact ⟨hm, by omega⟩
  unfold cacheStep
  rw [if_neg hcond]
  cases hmg : mapGet w.map req.url with
  | none =>
    simp only [hmg, hok, if_true]
    rfl
  | some c =>
    have hne : ¬(c.expires > now) := by
      have := hmiss c hmg
      omega
    simp only [hmg, if_neg hne, hok, if_true]
    rfl

theorem cacheStep_miss_notok {opts : CacheOptions} {w : CacheWorld}
    {req : MRequest} {now : Int} {next : Unit → MResponse}
    (hm : req.method = "GET".data) (ha : 0 < opts.maxAge)
    (hmiss : ∀ c, mapGet w.map req.url = some c → c.expires ≤ now)
    (hnotok : (next ()).isOkResp = false) :
    cacheStep opts w req now next = (w, next (), true) := by
  have hcond : ¬(¬(req.method = "GET".data) ∨ opts.maxAge ≤ 0) := by
    push_neg
    exact ⟨hm, by omega⟩
  unfold cacheStep
  rw [if_neg hcond]
  cases hmg : mapGet w.map req.url with
  | none =>
    simp only [hmg, hnotok]
    rfl
  | some c =>
    have hne : ¬(c.expires > now) := by
      have := hmiss c hmg
      omega
    simp only [hmg, if_neg hne, hnotok]
    rfl

theorem cacheStep_miss_invokes {opts : CacheOptions} {w : CacheWorld}
    {req : MRequest} {now : Int} {next : Unit → MResponse}
    (hm : req.method = "GET".data) (ha : 0 < opts.maxAge)
    (hmiss : ∀ c, mapGet w.map req.url = some c → c.expires ≤ now) :
    (cacheStep opts w req now next).2.2 = true := by
  cases hok : (next ()).isOkResp with
  | true => rw [cacheStep_miss_store hm ha hmiss hok]
  | false => rw [cacheStep_miss_notok hm ha hmiss hok]

/-- C5: with `maxSize = 2` and a 60-second TTL, GETs for distinct URLs
`A`, `B`, `C` (all misses whose downstream responses have success status)
evict exactly `A`; afterwards GET `B` and GET `C` are hits that do not
invoke downstream, a repeated hit on `B` emits a body stream distinct
from the earlier `B` hit (no two emitted responses share a single-read
body state), and a GET for `A` is a miss that invokes downstream. -/
theorem cache_lru_run (A B C : Str) (hAB : A ≠ B) (hAC : A ≠ C) (hBC : B ≠ C)
    (rA rB rC rB2 rC2 rB3 rA2 : MResponse) (now : Int)
    (hokA : rA.isOkResp = true) (hokB : rB.isOkResp = true)
    (hokC : rC.isOkResp = true) :
    let opts : CacheOptions := { maxAge := 60, maxSize := 2 }
    let s1 := cacheStep opts {} ⟨"GET".data, A, []⟩ now (fun _ => rA)
    let s2 := cacheStep opts s1.1 ⟨"GET".data, B, []⟩ now (fun _ => rB)
    let s3 := cacheStep opts s2.1 ⟨"GET".data, C, []⟩ now (fun _ => rC)
    let s4 := cacheStep opts s3.1 ⟨"GET".data, B, []⟩ now (fun _ => rB2)
    let s5 := cacheStep opts s4.1 ⟨"GET".data, C, []⟩ now (fun _ => rC2)
    let s6 := cacheStep opts s5.1 ⟨"GET".data, B, []⟩ now (fun _ => rB3)
    let s7 := cacheStep opts s6.1 ⟨"GET".data, A, []⟩ now (fun _ => rA2)
    mapGet s3.1.map A = none ∧
      (mapGet s3.1.map B).isSome = true ∧ (mapGet s3.1.map C).isSome = true ∧
      s4.2.2 = false ∧ s5.2.2 = false ∧ s6.2.2 = false ∧
      s6.2.1.bodyId ≠ s4.2.1.bodyId ∧
      s7.2.2 = true := by
  have nAB : (A == B) = false := beq_eq_false_iff_ne.mpr hAB
  have nBA : (B == A) = false := beq_eq_false_iff_ne.mpr (Ne.symm hAB)
  have nAC : (A == C) = false := beq_eq_false_iff_ne.mpr hAC
  have nCA : (C == A) = false := beq_eq_false_iff_ne.mpr (Ne.symm hAC)
  have nBC : (B == C) = false := beq_eq_false_iff_ne.mpr hBC
  have nCB : (C == B) = false := beq_eq_false_iff_ne.mpr (Ne.symm hBC)
  have e1 : cacheStep { maxAge := 60, maxSize := 2 } {}
      ⟨"GET".data, A, []⟩ now (fun _ => rA) =
      ({ map := [(A, ⟨{ rA with bodyId := 0 }, now + 60 * 1000⟩)],
         nextBodyId := 1 }, rA, true) := by
    rw [cacheStep_miss_store rfl (by decide)
      (fun c hc => by simp [mapGet] at hc) hokA]
    simp [mapSet, mapDelete, mapOldestKey]
  have e2 : cacheStep { maxAge := 60, maxSize := 2 }
      { map := [(A, ⟨{ rA with bodyId := 0 }, now + 60 * 1000⟩)],
        nextBodyId := 1 }
      ⟨"GET".data, B, []⟩ now (fun _ => rB) =
      ({ map := [(A, ⟨{ rA with bodyId := 0 }, now + 60 * 1000⟩),
                 (B, ⟨{ rB with bodyId := 1 }, now + 60 * 1000⟩)],
         nextBodyId := 2 }, rB, true) := by
    rw [cacheStep_miss_store rfl (by decide)
      (fun c hc => by simp [mapGet, List.find?, nAB] at hc) hokB]
    simp [mapSet, mapDelete, mapOldestKey, nAB]
  have e3 : cacheStep { maxAge := 60, maxSize := 2 }
      { map := [(A, ⟨{ rA with bodyId := 0 }, now + 60 * 1000⟩),
                (B, ⟨{ rB with bodyId := 1 }, now + 60 * 1000⟩)],
        nextBodyId := 2 }
      ⟨"GET".data, C, []⟩ now (fun _ => rC) =
      ({ map := [(B, ⟨{ rB with bodyId := 1 }, now + 60 * 1000⟩),
                 (C, ⟨{ rC with bodyId := 2 }, now + 60 * 1000⟩)],
         nextBodyId := 3 }, rC, true) := by
    rw [cacheStep_miss_store rfl (by decide)
      (fun c hc => by simp [mapGet, List.find?, nAC, nBC] at hc) hokC]
    simp [mapSet, mapDelete, mapOldestKey, bne, nAC, nBC, nBA, nCA, Ne.symm hAB, Ne.symm hAC]
  have e4 : cacheStep { maxAge := 60, maxSize := 2 }
      { map := [(B, ⟨{ rB with bodyId := 1 }, now + 60 * 1000⟩),
                (C, ⟨{ rC with bodyId := 2 }, now + 60 * 1000⟩)],
        nextBodyId := 3 }
      ⟨"GET".data, B, []⟩ now (fun _ => rB2) =
      ({ map := [(C, ⟨{ rC with bodyId := 2 }, now + 60 * 1000⟩),
                 (B, ⟨{ rB with bodyId := 1 }, now + 60 * 1000⟩)],
         nextBodyId := 4 }, { rB with bodyId := 3 }, false) := by
    rw [cacheStep_hit rfl (by decide)
      (show mapGet _ B = some ⟨{ rB with bodyId := 1 }, now + 60 * 1000⟩ by
        simp [mapGet, List.find?])
      (by dsimp only; omega)]
    simp [mapSet, mapDelete, mapOldestKey, bne, nCB, nBC]
  have e5 : cacheStep { maxAge := 60, maxSize := 2 }
      { map := [(C, ⟨{ rC with bodyId := 2 }, now + 60 * 1000⟩),
                (B, ⟨{ rB with bodyId := 1 }, now + 60 * 1000⟩)],
        nextBodyId := 4 }
      ⟨"GET".data, C, []⟩ now (fun _ => rC2) =
      ({ map := [(B, ⟨{ rB with bodyId := 1 }, now + 60 * 1000⟩),
                 (C, ⟨{ rC with bodyId := 2 }, now + 60 * 1000⟩)],
         nextBodyId := 5 }, { rC with bodyId := 4 }, false) := by
    rw [cacheStep_hit rfl (by decide)
      (show mapGet _ C = some ⟨{ rC with bodyId := 2 }, now + 60 * 1000⟩ by
        simp [mapGet, List.find?, nBC])
      (by dsimp only; omega)]
    simp [mapSet, mapDelete, mapOldestKey, bne, nBC, nCB]
  have e6 : cacheStep { maxAge := 60, maxSize := 2 }
      { map := [(B, ⟨{ rB with bodyId := 1 }, now + 60 * 1000⟩),
                (C, ⟨{ rC with bodyId := 2 }, now + 60 * 1000⟩)],
        nextBodyId := 5 }
      ⟨"GET".data, B, []⟩ now (fun _ => rB3) =
      ({ map := [(C, ⟨{ rC with bodyId := 2 }, now + 60 * 1000⟩),
                 (B, ⟨{ rB with bodyId := 1 }, now + 60 * 1000⟩)],
         nextBodyId := 6 }, { rB with bodyId := 5 }, false) := by
    rw [cacheStep_hit rfl (by decide)
      (show mapGet _ B = some ⟨{ rB with bodyId := 1 }, now + 60 * 1000⟩ by
        simp [mapGet, List.find?])
      (by dsimp only; omega)]
    simp [mapSet, mapDelete, mapOldestKey, bne, nCB, nBC]
  have e7 : (cacheStep { maxAge := 60, maxSize := 2 }
      { map := [(C, ⟨{ rC with bodyId := 2 }, now + 60 * 1000⟩),
                (B, ⟨{ rB with bodyId := 1 }, now + 60 * 1000⟩)],
        nextBodyId := 6 }
      ⟨"GET".data, A, []⟩ now (fun _ => rA2)).2.2 = true := by
    exact cacheStep_miss_invokes rfl (by decide)
      (fun c hc => by simp [mapGet, List.find?, nCA, nBA] at hc)
  dsimp only
  rw [e1]
  dsimp only
  rw [e2]
  dsimp only
  rw [e3]
  dsimp only
  rw [e4]
  dsimp only
  rw [e5]
  dsimp only
  rw [e6]
  dsimp only
  rw [e7]
  refine ⟨?_, ?_, ?_, rfl, rfl, rfl, ?_, rfl⟩
  · simp [mapGet, List.find?, nBA, nCA]
  · simp [mapGet, List.find?]
  · simp [mapGet, List.find?, nBC]
  · simp

theorem find?_map_replace_gen {α : Type} (t : List (Str × α)) (lk : Str)
    (v : α) (k' : Str) (h : k' ≠ lk) :
    ((t.map (fun kv => if kv.1 == lk then (lk, v) else kv)).find?
        (fun kv => kv.1 == k'))
      = t.find? (fun kv => kv.1 == k') := by
  induction t with
  | nil => rfl
  | cons kv t ih =>
    simp only [List.map_cons]
    by_cases hkv : kv.1 = lk
    · have hval : (if (kv.1 == lk) = true then (lk, v) else kv) = (lk, v) := by
        simp [hkv]
      rw [hval]
      rw [List.find?_cons_of_neg _ (by
          simp only [beq_iff_eq]
          exact fun hc => h hc.symm),
        List.find?_cons_of_neg _ (by
          simp only [beq_iff_eq, hkv]
          exact fun hc => h hc.symm)]
      exact ih
    · have hval : (if (kv.1 == lk) = true then (lk, v) else kv) = kv := by
        simp [hkv]
      rw [hval]
      by_cases hm : kv.1 = k'
      · rw [List.find?_cons_of_pos _ (by simpa using hm),
          List.find?_cons_of_pos _ (by simpa using hm)]
      · rw [List.find?_cons_of_neg _ (by simpa using hm),
          List.find?_cons_of_neg _ (by simpa using hm)]
        exact ih

theorem find?_map_replace_self_gen {α : Type} (t : List (Str × α)) (lk : Str)
    (v : α) (hany : t.any (fun kv => kv.1 == lk) = true) :
    ((t.map (fun kv => if kv.1 == lk then (lk, v) else kv)).find?
        (fun kv => kv.1 == lk))
      = some (lk, v) := by
  induction t with
  | nil => simp at hany
  | cons kv t ih =>
    simp only [List.map_cons]
    by_cases hkv : kv.1 = lk
    · have hval : (if (kv.1 == lk) = true then (lk, v) else kv) = (lk, v) := by
        simp [hkv]
      rw [hval, List.find?_cons_of_pos _ (by simp)]
    · have hval : (if (kv.1 == lk) = true then (lk, v) else kv) = kv := by
        simp [hkv]
      rw [hval, List.find?_cons_of_neg _ (by simpa using hkv)]
      refine ih ?_
      simp only [List.any_cons, Bool.or_eq_true] at hany
      rcases hany with hh | ht
      · exact absurd (by simpa using hh) hkv
      · exact ht

theorem mapGet_mapSet_self (m : CacheMap) (k : Str) (v : CacheEntry) :
    mapGet (mapSet m k v) k = some v := by
  unfold mapGet mapSet
  by_cases hany : m.any (fun kv => kv.1 == k) = true
  · rw [if_pos hany, find?_map_replace_self_gen m k v hany]
    rfl
  · rw [if_neg hany, List.find?_append]
    have hnone : m.find? (fun kv => kv.1 == k) = none := by
      rw [List.find?_eq_none]
      intro x hx hbx
      exact hany (List.any_eq_true.mpr ⟨x, hx, hbx⟩)
    rw [hnone]
    simp

theorem mapGet_mapSet_other (m : CacheMap) {k k' : Str} (v : CacheEntry)
    (h : k' ≠ k) :
    mapGet (mapSet m k v) k' = mapGet m k' := by
  unfold mapGet mapSet
  by_cases hany : m.any (fun kv => kv.1 == k) = true
  · rw [if_pos hany, find?_map_replace_gen m k v k' h]
  · rw [if_neg hany, List.find?_append]
    cases hf : m.find? (fun kv => kv.1 == k') with
    | some kv => simp
    | none =>
      have h2 : List.find? (fun kv => kv.1 == k') [(k, v)] = none := by
        rw [List.find?_cons_of_neg _ (by
          simp only [beq_iff_eq]
          exact fun hc => h hc.symm)]
        rfl
      simp [h2]

theorem mapGet_mapDelete_self (m : CacheMap) (k : Str) :
    mapGet (mapDelete m k) k = none := by
  unfold mapGet mapDelete
  have : (m.filter (fun kv => kv.1 != k)).find? (fun kv => kv.1 == k) = none := by
    rw [List.find?_eq_none]
    intro x hx hbx
    obtain ⟨hmem, hpred⟩ := List.mem_filter.mp hx
    have hx1 : x.1 ≠ k := by simpa using hpred
    exact hx1 (by simpa using hbx)
  rw [this]
  rfl

theorem mapGet_mapDelete_other (m : CacheMap) {k k' : Str} (h : k' ≠ k) :
    mapGet (mapDelete m k) k' = mapGet m k' := by
  unfold mapGet mapDelete
  congr 1
  induction m with
  | nil => rfl
  | cons kv t ih =>
    by_cases hkv : kv.1 = k
    · rw [List.filter_cons_of_neg (by simp [bne, hkv])]
      rw [List.find?_cons_of_neg _ (by
        simp only [beq_iff_eq, hkv]
        exact fun hc => h hc.symm)]
      exact ih
    · rw [List.filter_cons_of_pos (by simp [bne, hkv])]
      by_cases hm : kv.1 = k'
      · rw [List.find?_cons_of_pos _ (by simpa using hm),
          List.find?_cons_of_pos _ (by simpa using hm)]
      · rw [List.find?_cons_of_neg _ (by simpa using hm),
          List.find?_cons_of_neg _ (by simpa using hm)]
        exact ih

theorem mapGet_isSome_iff_any (m : CacheMap) (k : Str) :
    (mapGet m k).isSome = true ↔ m.any (fun kv => kv.1 == k) = true := by
  unfold mapGet
  rw [Option.isSome_map']
  rw [List.find?_isSome, List.any_eq_true]

theorem mapSet_length_of_mem (m : CacheMap) (k : Str) (v : CacheEntry)
    (hany : m.any (fun kv => kv.1 == k) = true) :
    (mapSet m k v).length = m.length := by
  unfold mapSet
  rw [if_pos hany, List.length_map]

theorem mapGet_mapDelete_none (m : CacheMap) (k k' : Str)
    (h : mapGet m k = none) : mapGet (mapDelete m k') k = none := by
  by_cases hk : k = k'
  · subst hk
    exact mapGet_mapDelete_self m k
  · rw [mapGet_mapDelete_other m hk]
    exact h

/-- C3 counterexample: the cache key is `req.url`, the *full* URL string.
Two GET requests whose URLs differ only in the scheme (`http` vs `https`;
same host, path and query) do not share a cache entry: after the first
request stores a response, the second is still a miss and invokes
downstream, refuting "scheme and host excluded ... map to the same cache
entry". -/
theorem cache_key_scheme_host_cex :
    (cacheStep { maxAge := 60, maxSize := 100 }
        (cacheStep { maxAge := 60, maxSize := 100 } {}
          ⟨"GET".data, "http://h/x?q=1".data, []⟩ 0
          (fun _ => { status := 200 })).1
        ⟨"GET".data, "https://h/x?q=1".data, []⟩ 0
        (fun _ => { status := 200 })).2.2 = true ∧
      mapGet (cacheStep { maxAge := 60, maxSize := 100 } {}
          ⟨"GET".data, "http://h/x?q=1".data, []⟩ 0
          (fun _ => { status := 200 })).1.map
        ("https://h/x?q=1".data) = none ∧
      mapGet (cacheStep { maxAge := 60, maxSize := 100 } {}
          ⟨"GET".data, "http://h/x?q=1".data, []⟩ 0
          (fun _ => { status := 200 })).1.map
        ("http://h/x?q=1".data) ≠ none := by
  refine ⟨?_, ?_, ?_⟩ <;> decide

/-- C3 amended: the cache key is the request's full URL string (scheme and
host included): a cache middleware invocation under a positive TTL serves
from cache exactly when the map holds a non-expired entry at key
`req.url`, and an entry stored under one URL string is invisible to any
lookup under a different URL string — so requests that differ only in
scheme or host use different entries. -/
theorem cache_key_is_full_url (opts : CacheOptions) (w : CacheWorld)
    (req : MRequest) (now : Int) (next : Unit → MResponse)
    (hm : req.method = "GET".data) (ha : 0 < opts.maxAge) :
    ((cacheStep opts w req now next).2.2 = false ↔
        ∃ c, mapGet w.map req.url = some c ∧ now < c.expires) ∧
      (∀ (m : CacheMap) (u1 u2 : Str) (e : CacheEntry), u2 ≠ u1 →
        mapGet (mapSet m u1 e) u2 = mapGet m u2) := by
  constructor
  · constructor
    · intro h
      cases hmg : mapGet w.map req.url with
      | none =>
        have ht := @cacheStep_miss_invokes opts w req now next hm ha
          (fun c hc => by rw [hmg] at hc; cases hc)
        rw [ht] at h
        cases h
      | some c =>
        by_cases he : now < c.expires
        · exact ⟨c, rfl, he⟩
        · have ht := @cacheStep_miss_invokes opts w req now next hm ha
            (fun c' hc' => by
              have hcc : c = c' := Option.some.inj (hmg.symm.trans hc')
              rw [← hcc]
              omega)
          rw [ht] at h
          cases h
    · rintro ⟨c, hc, he⟩
      rw [cacheStep_hit hm ha hc he]
  · intro m u1 u2 e hne
    exact mapGet_mapSet_other m e hne

/-- Witness for C3's amended theorem: a GET with TTL 60 at time 0. -/
theorem cache_key_is_full_url_witness :
    ("GET".data = "GET".data) ∧ (0 : Int) < 60 ∧
      (((cacheStep { maxAge := 60, maxSize := 100 } {}
          ⟨"GET".data, "http://h/x".data, []⟩ 0
          (fun _ => { status := 200 })).2.2 = false ↔
        ∃ c, mapGet (CacheWorld.map {}) ("http://h/x".data) = some c ∧
          (0 : Int) < c.expires) ∧
      (∀ (m : CacheMap) (u1 u2 : Str) (e : CacheEntry), u2 ≠ u1 →
        mapGet (mapSet m u1 e) u2 = mapGet m u2)) :=
  ⟨rfl, by decide,
    cache_key_is_full_url { maxAge := 60, maxSize := 100 } {}
      ⟨"GET".data, "http://h/x".data, []⟩ 0 (fun _ => { status := 200 })
      rfl (by decide)⟩

/-- C6 counterexample: a lookup that finds the stored entry expired does
*not* remove it.  With an entry expired at 5, a GET at time 10 whose
downstream response is a 404 leaves the expired entry in the map
untouched. -/
theorem cache_expired_entry_not_removed_cex :
    ((5 : Int) ≤ 10) ∧
      (cacheStep { maxAge := 60, maxSize := 100 }
        { map := [("http://h/k".data, ⟨{ status := 200 }, 5⟩)], nextBodyId := 0 }
        ⟨"GET".data, "http://h/k".data, []⟩ 10
        (fun _ => { status := 404 })).2.2 = true ∧
      mapGet (cacheStep { maxAge := 60, maxSize := 100 }
          { map := [("http://h/k".data, ⟨{ status := 200 }, 5⟩)], nextBodyId := 0 }
          ⟨"GET".data, "http://h/k".data, []⟩ 10
          (fun _ => { status := 404 })).1.map ("http://h/k".data) =
        some ⟨{ status := 200 }, 5⟩ := by
  refine ⟨by decide, ?_, ?_⟩ <;> decide

/-- C6 amended: the entry lifecycle of the cache, for a GET under a
positive TTL against a map within capacity: (a) an entry is created only
at the request key, by an invocation that called downstream and got a
success status; (b) a non-expired hit invokes nothing downstream and
refreshes recency by deleting and reinserting the entry at the tail;
(c) a lookup that finds the stored entry expired leaves it in place — the
map is unchanged when downstream does not return success, and the entry
is overwritten in place (not removed) when it does; (d) an entry
disappears from the map only through capacity-overflow eviction of the
oldest key after a successful store. -/
theorem cache_entry_lifecycle (opts : CacheOptions) (w : CacheWorld)
    (req : MRequest) (now : Int) (next : Unit → MResponse)
    (hm : req.method = "GET".data) (ha : 0 < opts.maxAge)
    (hcap : w.map.length ≤ opts.maxSize) :
    (∀ k, mapGet w.map k = none →
        (mapGet (cacheStep opts w req now next).1.map k).isSome = true →
        k = req.url ∧ (cacheStep opts w req now next).2.2 = true ∧
          (next ()).isOkResp = true) ∧
      (∀ c, mapGet w.map req.url = some c → now < c.expires →
        (cacheStep opts w req now next).2.2 = false ∧
          (cacheStep opts w req now next).1.map =
            mapSet (mapDelete w.map req.url) req.url c) ∧
      (∀ c, mapGet w.map req.url = some c → c.expires ≤ now →
        (cacheStep opts w req now next).2.2 = true ∧
          ((next ()).isOkResp = false →
            (cacheStep opts w req now next).1.map = w.map) ∧
          ((next ()).isOkResp = true →
            (cacheStep opts w req now next).1.map =
              mapSet w.map req.url
                ⟨{ next () with bodyId := w.nextBodyId },
                  now + opts.maxAge * 1000⟩)) ∧
      (∀ k, (mapGet w.map k).isSome = true →
        mapGet (cacheStep opts w req now next).1.map k = none →
        (cacheStep opts w req now next).2.2 = true ∧
          (next ()).isOkResp = true ∧
          (mapSet w.map req.url
            ⟨{ next () with bodyId := w.nextBodyId },
              now + opts.maxAge * 1000⟩).length > opts.maxSize ∧
          k = mapOldestKey (mapSet w.map req.url
            ⟨{ next () with bodyId := w.nextBodyId },
              now + opts.maxAge * 1000⟩)) := by
  refine ⟨?_, ?_, ?_, ?_⟩
  · intro k hk hk'
    cases hmg : mapGet w.map req.url with
    | some c =>
      by_cases he : now < c.expires
      · rw [cacheStep_hit hm ha hmg he] at hk'
        dsimp only at hk'
        have hku : k ≠ req.url := fun hc => by
          rw [hc, hmg] at hk
          cases hk
        rw [mapGet_mapSet_other _ _ hku, mapGet_mapDelete_other _ hku, hk] at hk'
        cases hk'
      · have hmiss : ∀ c', mapGet w.map req.url = some c' → c'.expires ≤ now :=
          fun c' hc' => by
            have hcc : c = c' := Option.some.inj (hmg.symm.trans hc')
            rw [← hcc]
            omega
        cases hok : (next ()).isOkResp with
        | false =>
          rw [cacheStep_miss_notok hm ha hmiss hok] at hk'
          dsimp only at hk'
          rw [hk] at hk'
          cases hk'
        | true =>
          by_cases hku : k = req.url
          · exact ⟨hku, by rw [cacheStep_miss_store hm ha hmiss hok], rfl⟩
          · rw [cacheStep_miss_store hm ha hmiss hok] at hk'
            dsimp only at hk'
            split at hk'
            · rw [mapGet_mapDelete_none] at hk'
              · cases hk'
              · rw [mapGet_mapSet_other _ _ hku, hk]
            · rw [mapGet_mapSet_other _ _ hku, hk] at hk'
              cases hk'
    | none =>
      have hmiss : ∀ c', mapGet w.map req.url = some c' → c'.expires ≤ now :=
        fun c' hc' => by rw [hmg] at hc'; cases hc'
      cases hok : (next ()).isOkResp with
      | false =>
        rw [cacheStep_miss_notok hm ha hmiss hok] at hk'
        dsimp only at hk'
        rw [hk] at hk'
        cases hk'
      | true =>
        by_cases hku : k = req.url
        · exact ⟨hku, by rw [cacheStep_miss_store hm ha hmiss hok], rfl⟩
        · rw [cacheStep_miss_store hm ha hmiss hok] at hk'
          dsimp only at hk'
          split at hk'
          · rw [mapGet_mapDelete_none] at hk'
            · cases hk'
            · rw [mapGet_mapSet_other _ _ hku, hk]
          · rw [mapGet_mapSet_other _ _ hku, hk] at hk'
            cases hk'
  · intro c hmg he
    rw [cacheStep_hit hm ha hmg he]
    exact ⟨rfl, rfl⟩
  · intro c hmg he
    have hmiss : ∀ c', mapGet w.map req.url = some c' → c'.expires ≤ now :=
      fun c' hc' => by
        have hcc : c = c' := Option.some.inj (hmg.symm.trans hc')
        rw [← hcc]
        omega
    refine ⟨cacheStep_miss_invokes hm ha hmiss, ?_, ?_⟩
    · intro hok
      rw [cacheStep_miss_notok hm ha hmiss hok]
    · intro hok
      rw [cacheStep_miss_store hm ha hmiss hok]
      dsimp only
      have hany : w.map.any (fun kv => kv.1 == req.url) = true :=
        (mapGet_isSome_iff_any w.map req.url).mp (by rw [hmg]; rfl)
      rw [if_neg]
      rw [mapSet_length_of_mem _ _ _ hany]
      omega
  · intro k hk hk'
    cases hmg : mapGet w.map req.url with
    | some c =>
      by_cases he : now < c.expires
      · rw [cacheStep_hit hm ha hmg he] at hk'
        dsimp only at hk'
        by_cases hku : k = req.url
        · rw [hku, mapGet_mapSet_self] at hk'
          cases hk'
        · rw [mapGet_mapSet_other _ _ hku, mapGet_mapDelete_other _ hku] at hk'
          rw [hk'] at hk
          cases hk
      · have hmiss : ∀ c', mapGet w.map req.url = some c' → c'.expires ≤ now :=
          fun c' hc' => by
            have hcc : c = c' := Option.some.inj (hmg.symm.trans hc')
            rw [← hcc]
            omega
        cases hok : (next ()).isOkResp with
        | false =>
          rw [cacheStep_miss_notok hm ha hmiss hok] at hk'
          dsimp only at hk'
          rw [hk'] at hk
          cases hk
        | true =>
          rw [cacheStep_miss_store hm ha hmiss hok] at hk'
          dsimp only at hk'
          split at hk'
          · rename_i hover
            refine ⟨by rw [cacheStep_miss_store hm ha hmiss hok], rfl, hover, ?_⟩
            by_contra hko
            rw [mapGet_mapDelete_other _ hko] at hk'
            by_cases hku : k = req.url
            · rw [hku, mapGet_mapSet_self] at hk'
              cases hk'
            · rw [mapGet_mapSet_other _ _ hku] at hk'
              rw [hk'] at hk
              cases hk
          · by_cases hku : k = req.url
            · rw [hku, mapGet_mapSet_self] at hk'
              cases hk'
            · rw [mapGet_mapSet_other _ _ hku] at hk'
              rw [hk'] at hk
              cases hk
    | none =>
      have hmiss : ∀ c', mapGet w.map req.url = some c' → c'.expires ≤ now :=
        fun c' hc' => by rw [hmg] at hc'; cases hc'
      cases hok : (next ()).isOkResp with
      | false =>
        rw [cacheStep_miss_notok hm ha hmiss hok] at hk'
        dsimp only at hk'
        rw [hk'] at hk
        cases hk
      | true =>
        rw [cacheStep_miss_store hm ha hmiss hok] at hk'
        dsimp only at hk'
        split at hk'
        · rename_i hover
          refine ⟨by rw [cacheStep_miss_store hm ha hmiss hok], rfl, hover, ?_⟩
          by_contra hko
          rw [mapGet_mapDelete_other _ hko] at hk'
          by_cases hku : k = req.url
          · rw [hku, mapGet_mapSet_self] at hk'
            cases hk'
          · rw [mapGet_mapSet_other _ _ hku] at hk'
            rw [hk'] at hk
            cases hk
        · by_cases hku : k = req.url
          · rw [hku, mapGet_mapSet_self] at hk'
            cases hk'
          · rw [mapGet_mapSet_other _ _ hku] at hk'
            rw [hk'] at hk
            cases hk

/-- Witness for C6's amended lifecycle theorem: a concrete world holding
one non-expired entry; the hit branch of the lifecycle applies. -/
theorem cache_entry_lifecycle_witness :
    let w0 : CacheWorld :=
      { map := [("http://h/x".data, ⟨{ status := 200 }, 100⟩)], nextBodyId := 0 }
    let req0 : MRequest := ⟨"GET".data, "http://h/x".data, []⟩
    let n404 : Unit → MResponse := fun _ => { status := 404 }
    ("GET".data = "GET".data) ∧ ((0 : Int) < 60) ∧ w0.map.length ≤ 100 ∧
      (∀ c, mapGet w0.map req0.url = some c → (0 : Int) < c.expires →
        (cacheStep { maxAge := 60, maxSize := 100 } w0 req0 0 n404).2.2 = false ∧
        (cacheStep { maxAge := 60, maxSize := 100 } w0 req0 0 n404).1.map =
          mapSet (mapDelete w0.map req0.url) req0.url c) := by
  intro w0 req0 n404
  exact ⟨rfl, by decide, by decide,
    (cache_entry_lifecycle { maxAge := 60, maxSize := 100 } w0 req0 0 n404
      rfl (by decide) (by decide)).2.1⟩

/-- Witness for C5 at three concrete URLs. -/
theorem cache_lru_run_witness :
    let A := "http://h/a".data
    let B := "http://h/b".data
    let C := "http://h/c".data
    let rr : MResponse := { status := 200 }
    (A ≠ B) ∧ (A ≠ C) ∧ (B ≠ C) ∧ rr.isOkResp = true ∧
      (let opts : CacheOptions := { maxAge := 60, maxSize := 2 }
       let s1 := cacheStep opts {} ⟨"GET".data, A, []⟩ 0 (fun _ => rr)
       let s2 := cacheStep opts s1.1 ⟨"GET".data, B, []⟩ 0 (fun _ => rr)
       let s3 := cacheStep opts s2.1 ⟨"GET".data, C, []⟩ 0 (fun _ => rr)
       let s4 := cacheStep opts s3.1 ⟨"GET".data, B, []⟩ 0 (fun _ => rr)
       let s5 := cacheStep opts s4.1 ⟨"GET".data, C, []⟩ 0 (fun _ => rr)
       let s6 := cacheStep opts s5.1 ⟨"GET".data, B, []⟩ 0 (fun _ => rr)
       let s7 := cacheStep opts s6.1 ⟨"GET".data, A, []⟩ 0 (fun _ => rr)
       mapGet s3.1.map A = none ∧
         (mapGet s3.1.map B).isSome = true ∧ (mapGet s3.1.map C).isSome = true ∧
         s4.2.2 = false ∧ s5.2.2 = false ∧ s6.2.2 = false ∧
         s6.2.1.bodyId ≠ s4.2.1.bodyId ∧
         s7.2.2 = true) := by
  intro A B C rr
  exact ⟨by decide, by decide, by decide, by decide,
    cache_lru_run A B C (by decide) (by decide) (by decide)
      rr rr rr rr rr rr rr 0 (by decide) (by decide) (by decide)⟩

/-- C9: every middleware produced by `cache(options)` closes over the one
module-level `memoryCache` map, modelled as the single `CacheWorld`
threaded through every invocation regardless of which options record the
invoking instance was created from.  A response stored through an
instance with options `o1` is returned as a hit by an invocation through
a *different* instance `o2` on the same key — subject only to `o2`'s own
method and maxAge checks and the stored entry's expiry — and creating an
instance (a pure options record) never touches the shared map. -/
theorem cache_shared_across_instances (o1 o2 : CacheOptions) (w : CacheWorld)
    (u : Str) (r r2 : MResponse) (now1 now2 : Int)
    (h1 : 0 < o1.maxAge) (h2 : 0 < o2.maxAge)
    (hmiss : mapGet w.map u = none) (hok : r.isOkResp = true)
    (hcap : w.map.length < o1.maxSize)
    (hfresh : now2 < now1 + o1.maxAge * 1000) :
    let s1 := cacheStep o1 w ⟨"GET".data, u, []⟩ now1 (fun _ => r)
    let s2 := cacheStep o2 s1.1 ⟨"GET".data, u, []⟩ now2 (fun _ => r2)
    s2.2.2 = false ∧
      s2.2.1 = { r with bodyId := w.nextBodyId + 1 } := by
  have hmiss' : ∀ c, mapGet w.map u = some c → c.expires ≤ now1 :=
    fun c hc => by rw [hmiss] at hc; cases hc
  have e1 : cacheStep o1 w ⟨"GET".data, u, []⟩ now1 (fun _ => r) =
      ({ map := mapSet w.map u
           ⟨{ r with bodyId := w.nextBodyId }, now1 + o1.maxAge * 1000⟩,
         nextBodyId := w.nextBodyId + 1 }, r, true) := by
    rw [cacheStep_miss_store rfl h1 hmiss' hok]
    dsimp only
    have hanyf : w.map.any (fun kv => kv.1 == u) = false := by
      cases hany : w.map.any (fun kv => kv.1 == u) with
      | false => rfl
      | true =>
        have := (mapGet_isSome_iff_any w.map u).mpr hany
        rw [hmiss] at this
        cases this
    have hlen : (mapSet w.map u
        ⟨{ r with bodyId := w.nextBodyId }, now1 + o1.maxAge * 1000⟩).length =
        w.map.length + 1 := by
      unfold mapSet
      rw [if_neg (by rw [hanyf]; exact Bool.false_ne_true)]
      simp
    rw [if_neg (by rw [hlen]; omega)]
  dsimp only
  rw [e1]
  dsimp only
  rw [cacheStep_hit rfl h2 (mapGet_mapSet_self _ _ _) (by dsimp only; omega)]
  exact ⟨rfl, rfl⟩

/-- Witness for C9: store through a TTL-60 instance, hit through a TTL-5
instance created afterwards. -/
theorem cache_shared_across_instances_witness :
    let o1 : CacheOptions := { maxAge := 60, maxSize := 100 }
    let o2 : CacheOptions := { maxAge := 5, maxSize := 2 }
    let rr : MResponse := { status := 200, body := "hello".data }
    ((0 : Int) < o1.maxAge) ∧ ((0 : Int) < o2.maxAge) ∧
      mapGet (CacheWorld.map {}) ("http://h/x".data) = none ∧
      rr.isOkResp = true ∧ (CacheWorld.map {}).length < o1.maxSize ∧
      ((1000 : Int) < 0 + o1.maxAge * 1000) ∧
      (let s1 := cacheStep o1 {} ⟨"GET".data, "http://h/x".data, []⟩ 0
        (fun _ => rr)
       let s2 := cacheStep o2 s1.1 ⟨"GET".data, "http://h/x".data, []⟩ 1000
        (fun _ => { status := 404 })
       s2.2.2 = false ∧
         s2.2.1 = { rr with bodyId := CacheWorld.nextBodyId {} + 1 }) := by
  intro o1 o2 rr
  exact ⟨by decide, by decide, rfl, by decide, by decide, by decide,
    cache_shared_across_instances o1 o2 {} ("http://h/x".data) rr
      { status := 404 } 0 1000 (by decide) (by decide) rfl (by decide)
      (by decide) (by decide)⟩

/-! ## Compression (claim C4) -/

/-- C4, evaluated at the failing input.  First half (which holds): with
`Accept-Encoding: br, gzip` against a `text/html` downstream response,
the middleware emits `Content-Encoding: br` and removes
`Content-Length`.  Second half (the bug): with *no* `Accept-Encoding`
header the middleware first consumes the downstream body
(`await response.arrayBuffer()` runs before the encoding check) and then
returns the *original* response object — its status and headers are
unchanged, but its body stream has been read (second component `true`),
so the caller can no longer read the nonempty body, contradicting
"unchanged byte-for-byte ... still fully readable". -/
theorem compression_consumes_body_without_accept_encoding :
    let resp : MResponse :=
      { status := 200,
        headers := [("content-type".data, "text/html".data),
                    ("content-length".data, "15".data)],
        body := "<html>hi</html>".data, bodyId := 7 }
    let reqBr : MRequest :=
      ⟨"GET".data, "http://h/".data,
        [("accept-encoding".data, "br, gzip".data)]⟩
    let reqNone : MRequest := ⟨"GET".data, "http://h/".data, []⟩
    getHeader (compressionStep id id {} reqBr resp 99).1.headers
        ("Content-Encoding".data) = some ("br".data) ∧
      getHeader (compressionStep id id {} reqBr resp 99).1.headers
        ("Content-Length".data) = none ∧
      resp.body ≠ [] ∧
      (compressionStep id id {} reqNone resp 99).1 = resp ∧
      (compressionStep id id {} reqNone resp 99).2 = true := by
  refine ⟨?_, ?_, ?_, ?_, ?_⟩ <;> decide

/-! ## CORS (claim C10) -/

/-- C10 counterexample: the middleware reads a missing `Origin` header as
the empty string, so when the empty string is itself among the configured
origins the `includes` test matches and the header echoes `""` instead of
the first configured origin.  With `origin: ["http://a", ""]` and no
request `Origin`, the preflight response carries
`Access-Control-Allow-Origin: ` (empty), not `http://a`. -/
theorem cors_absent_origin_empty_entry_cex :
    getHeader (corsStep { origin := OriginCfg.arr ["http://a".data, []] }
        ⟨"OPTIONS".data, "http://h/".data, []⟩
        (fun _ => { status := 200 })).1.headers
      ("Access-Control-Allow-Origin".data) = some [] ∧
      ("http://a".data : Str) ≠ [] ∧
      (["http://a".data, ([] : Str)]).headD ("undefined".data) =
        "http://a".data := by
  refine ⟨?_, by decide, by decide⟩
  decide

/-- C10 amended: provided the configured origin list is nonempty and does
not itself contain the empty string (the code treats a missing `Origin`
header as the empty string), every request whose `Origin` is absent or
not contained in the list gets `Access-Control-Allow-Origin` set to the
first configured origin — never omitted and never the unmatched request
origin — and an OPTIONS request short-circuits with 204. -/
theorem cors_unmatched_origin_uses_first (opts : CorsOptions)
    (l : List Str) (req : MRequest) (next : Unit → MResponse)
    (hl : opts.origin = OriginCfg.arr l) (hne : l ≠ [])
    (hno : ((getHeader req.headers ("Origin".data)).getD []) ∉ l) :
    getHeader (corsStep opts req next).1.headers
        ("Access-Control-Allow-Origin".data) =
      some (l.headD ("undefined".data)) ∧
      l.headD ("undefined".data) ≠
        (getHeader req.headers ("Origin".data)).getD [] ∧
      (req.method = "OPTIONS".data →
        (corsStep opts req next).1.status = 204 ∧
          (corsStep opts req next).2 = false) := by
  have hov : corsOriginValue opts
      ((getHeader req.headers ("Origin".data)).getD []) =
      l.headD ("undefined".data) := by
    unfold corsOriginValue
    rw [hl]
    dsimp only
    rw [if_neg (by simpa using hno)]
  have hhead : l.headD ("undefined".data) ∈ l := by
    cases l with
    | nil => exact absurd rfl hne
    | cons x t => simp
  refine ⟨?_, ?_, ?_⟩
  · unfold corsStep
    by_cases hopt : req.method = "OPTIONS".data
    · rw [if_pos hopt]
      dsimp only
      iterate 12
        all_goals
          try
            first
              | rw [getHeader_setHeader_self, hov]
              | rw [getHeader_setHeader_other _ _ (by decide)]
              | split
    · rw [if_neg hopt]
      dsimp only
      iterate 12
        all_goals
          try
            first
              | rw [getHeader_setHeader_self, hov]
              | rw [getHeader_setHeader_other _ _ (by decide)]
              | split
  · intro hc
    rw [hc] at hhead
    exact hno hhead
  · intro hopt
    unfold corsStep
    rw [if_pos hopt]
    exact ⟨rfl, rfl⟩

/-- Witness for C10's amended theorem: two configured origins, a
preflight request whose `Origin` is not among them. -/
theorem cors_unmatched_origin_uses_first_witness :
    let opts : CorsOptions :=
      { origin := OriginCfg.arr ["http://a".data, "http://b".data] }
    let req : MRequest :=
      ⟨"OPTIONS".data, "http://h/".data,
        [("origin".data, "http://evil".data)]⟩
    let nxt : Unit → MResponse := fun _ => { status := 200 }
    (opts.origin = OriginCfg.arr ["http://a".data, "http://b".data]) ∧
      (["http://a".data, "http://b".data] : List Str) ≠ [] ∧
      ((getHeader req.headers ("Origin".data)).getD [] ∉
        (["http://a".data, "http://b".data] : List Str)) ∧
      (getHeader (corsStep opts req nxt).1.headers
          ("Access-Control-Allow-Origin".data) =
        some ((["http://a".data, "http://b".data] : List Str).headD
          ("undefined".data)) ∧
        (["http://a".data, "http://b".data] : List Str).headD
            ("undefined".data) ≠
          (getHeader req.headers ("Origin".data)).getD [] ∧
        (req.method = "OPTIONS".data →
          (corsStep opts req nxt).1.status = 204 ∧
            (corsStep opts req nxt).2 = false)) := by
  intro opts req nxt
  exact ⟨rfl, by decide, by decide,
    cors_unmatched_origin_uses_first opts
      ["http://a".data, "http://b".data] req nxt rfl (by decide) (by decide)⟩

/-! ## Directory requests with a trailing slash (claim C2) -/

/-- C2, evaluated at the failing input: root `/r` contains the directory
`docs` (no `index.html`), directory listing is enabled, and the request
is `GET /docs/`.  The claim (and spec) require a 200 directory listing;
the code first normalizes the URL with `normalizeUrlPath`, which strips
the trailing slash, so the trailing-slash check fails and the handler
answers 301 with `Location: /docs/` — redirecting the request to itself
forever.  The 200-listing state is reachable only for the root URL `/`,
whose trailing slash survives normalization. -/
theorem handler_trailing_slash_redirect_loop_bug :
    let fs0 : FS :=
      { stat := fun p =>
          if p = "/r/docs".data then Except.ok ⟨FKind.dir, 0, 0⟩
          else Except.error ("ENOENT".data),
        readdir := fun _ => Except.error ("ENOENT".data),
        readFile := fun _ => [] }
    normalizeUrlPath ("/docs/".data) = "/docs".data ∧
      (handler ("/cwd".data) fs0 ("/r".data) ("/docs/".data) ("GET".data)
        ⟨false, true⟩).1.status = 301 ∧
      getHeader (handler ("/cwd".data) fs0 ("/r".data) ("/docs/".data)
          ("GET".data) ⟨false, true⟩).1.headers ("Location".data) =
        some ("/docs/".data) := by
  refine ⟨by decide, ?_, ?_⟩ <;> decide

/-! ## Path-resolution machinery (towards claim C1) -/

theorem splitSlash_ne_nil : ∀ l : Str, splitSlash l ≠ [] := by
  intro l
  cases l with
  | nil => simp [splitSlash]
  | cons c rest =>
    simp only [splitSlash]
    split
    · simp
    · cases splitSlash rest <;> simp

theorem splitSlash_cons_slash (y : Str) : splitSlash ('/' :: y) = [] :: splitSlash y := by
  simp [splitSlash]

theorem splitSlash_cons_ne {c : Char} (y : Str) (hc : c ≠ '/') :
    splitSlash (c :: y) =
      (c :: (splitSlash y).headD []) :: (splitSlash y).tail := by
  simp only [splitSlash, if_neg hc]
  cases hsp : splitSlash y with
  | nil => exact absurd hsp (splitSlash_ne_nil y)
  | cons h t => rfl

theorem splitSlash_append :
    ∀ (a b : Str), splitSlash (a ++ '/' :: b) = splitSlash a ++ splitSlash b := by
  intro a
  induction a with
  | nil => intro b; simp [splitSlash]
  | cons c a' ih =>
    intro b
    by_cases hc : c = '/'
    · subst hc
      rw [List.cons_append, splitSlash_cons_slash, splitSlash_cons_slash, ih]
      rfl
    · rw [List.cons_append, splitSlash_cons_ne _ hc, splitSlash_cons_ne _ hc, ih]
      cases hsp : splitSlash a' with
      | nil => exact absurd hsp (splitSlash_ne_nil a')
      | cons h t => simp

theorem splitSlash_no_slash : ∀ (l : Str) (s : Str), s ∈ splitSlash l → '/' ∉ s := by
  intro l
  induction l with
  | nil =>
    intro s hs
    simp [splitSlash] at hs
    simp [hs]
  | cons c rest ih =>
    intro s hs
    by_cases hc : c = '/'
    · subst hc
      rw [splitSlash_cons_slash] at hs
      rcases List.mem_cons.mp hs with rfl | hm
      · simp
      · exact ih s hm
    · rw [splitSlash_cons_ne _ hc] at hs
      cases hsp : splitSlash rest with
      | nil => exact absurd hsp (splitSlash_ne_nil rest)
      | cons h t =>
        rw [hsp] at hs
        rcases List.mem_cons.mp hs with rfl | hm
        · intro hmem
          rcases List.mem_cons.mp hmem with rfl | hm2
          · exact hc rfl
          · exact ih h (by rw [hsp]; exact List.mem_cons_self h t) (by
              simpa using hm2)
        · exact ih s (by rw [hsp]; exact List.mem_cons_of_mem h hm)

theorem intercalSlash_append :
    ∀ (l1 l2 : List Str), l1 ≠ [] → l2 ≠ [] →
      intercalSlash (l1 ++ l2) = intercalSlash l1 ++ '/' :: intercalSlash l2 := by
  intro l1
  induction l1 with
  | nil => intro l2 h; exact absurd rfl h
  | cons s t ih =>
    intro l2 _ h2
    cases t with
    | nil =>
      cases l2 with
      | nil => exact absurd rfl h2
      | cons u v => simp [intercalSlash]
    | cons s' t' =>
      have h := ih l2 (by simp) h2
      show s ++ '/' :: intercalSlash (s' :: t' ++ l2) =
        (s ++ '/' :: intercalSlash (s' :: t')) ++ '/' :: intercalSlash l2
      rw [h]
      simp

theorem splitSlash_single : ∀ s : Str, '/' ∉ s → splitSlash s = [s] := by
  intro s
  induction s with
  | nil => intro _; rfl
  | cons c t ih =>
    intro h
    have hc : c ≠ '/' := fun hc => h (by simp [hc])
    rw [splitSlash_cons_ne _ hc, ih (fun hm => h (List.mem_cons_of_mem c hm))]
    rfl

theorem splitSlash_intercal :
    ∀ segs : List Str, segs ≠ [] → (∀ s ∈ segs, '/' ∉ s) →
      splitSlash (intercalSlash segs) = segs := by
  intro segs
  induction segs with
  | nil => intro h; exact absurd rfl h
  | cons s t ih =>
    intro _ hns
    cases t with
    | nil =>
      show splitSlash (intercalSlash [s]) = [s]
      rw [show intercalSlash [s] = s from rfl]
      exact splitSlash_single s (hns s (by simp))
    | cons s' t' =>
      rw [show intercalSlash (s :: s' :: t') = s ++ '/' :: intercalSlash (s' :: t')
        from rfl]
      rw [splitSlash_append, splitSlash_single s (hns s (by simp))]
      rw [ih (by simp) (fun x hx => hns x (List.mem_cons_of_mem s hx))]
      rfl

theorem normStep_skip {a : Bool} (S : List Str) {seg : Str}
    (h : seg = [] ∨ seg = ['.']) : normStep a S seg = S := by
  unfold normStep
  rw [if_pos h]

theorem normStep_push {a : Bool} (S : List Str) {seg : Str}
    (h0 : ¬(seg = [] ∨ seg = ['.'])) (h2 : seg ≠ ['.', '.']) :
    normStep a S seg = seg :: S := by
  unfold normStep
  rw [if_neg h0, if_neg h2]

theorem normStep_dotdot_nil {a : Bool} :
    normStep a [] ['.', '.'] = if a then [['.', '.']] else [] := by
  unfold normStep
  rw [if_neg (by decide), if_pos rfl]

theorem normStep_dotdot_pop {a : Bool} {top : Str} {rest : List Str}
    (h : top ≠ ['.', '.']) :
    normStep a (top :: rest) ['.', '.'] = rest := by
  unfold normStep
  rw [if_neg (by decide), if_pos rfl]
  simp [h]

theorem normStep_dotdot_dotdot {a : Bool} {rest : List Str} :
    normStep a (['.', '.'] :: rest) ['.', '.'] =
      if a then ['.', '.'] :: ['.', '.'] :: rest else ['.', '.'] :: rest := by
  unfold normStep
  rw [if_neg (by decide), if_pos rfl]
  simp

theorem foldl_normStep_mem :
    ∀ (l : List Str) (a : Bool) (S : List Str) (e : Str),
      e ∈ List.foldl (normStep a) S l →
      e ∈ S ∨ (e ∈ l ∧ e ≠ [] ∧ e ≠ ['.']) ∨ e = ['.', '.'] := by
  intro l
  induction l with
  | nil =>
    intro a S e he
    exact Or.inl he
  | cons s t ih =>
    intro a S e he
    rw [List.foldl_cons] at he
    rcases ih a (normStep a S s) e he with hS | hl | hdd
    · by_cases h0 : s = [] ∨ s = ['.']
      · rw [normStep_skip S h0] at hS
        exact Or.inl hS
      · by_cases h2 : s = ['.', '.']
        · subst h2
          cases S with
          | nil =>
            rw [normStep_dotdot_nil] at hS
            cases a with
            | true =>
              simp at hS
              exact Or.inr (Or.inr hS)
            | false => simp at hS
          | cons top rest =>
            by_cases htop : top = ['.', '.']
            · subst htop
              rw [normStep_dotdot_dotdot] at hS
              cases a with
              | true =>
                simp only [if_true] at hS
                rcases List.mem_cons.mp hS with rfl | hS2
                · exact Or.inr (Or.inr rfl)
                · exact Or.inl hS2
              | false =>
                simp only [Bool.false_eq_true, if_false] at hS
                exact Or.inl hS
            · rw [normStep_dotdot_pop htop] at hS
              exact Or.inl (List.mem_cons_of_mem top hS)
        · rw [normStep_push S h0 h2] at hS
          rcases List.mem_cons.mp hS with rfl | hS2
          · push_neg at h0
            exact Or.inr (Or.inl ⟨by simp, h0⟩)
          · exact Or.inl hS2
    · exact Or.inr (Or.inl ⟨List.mem_cons_of_mem s hl.1, hl.2⟩)
    · exact Or.inr (Or.inr hdd)

theorem normStack_mem {x : List Str} {e : Str} (he : e ∈ normStack true x) :
    e ≠ [] ∧ e ≠ ['.'] := by
  rcases foldl_normStep_mem x true [] e he with h | h | h
  · cases h
  · exact h.2
  · subst h
    exact ⟨by decide, by decide⟩

theorem foldl_normStep_no_dotdot :
    ∀ (l : List Str) (S : List Str),
      (∀ e ∈ S, e ≠ ['.', '.']) →
      ∀ e ∈ List.foldl (normStep false) S l, e ≠ ['.', '.'] := by
  intro l
  induction l with
  | nil => intro S hS e he; exact hS e he
  | cons s t ih =>
    intro S hS e he
    rw [List.foldl_cons] at he
    refine ih (normStep false S s) ?_ e he
    intro x hx
    by_cases h0 : s = [] ∨ s = ['.']
    · rw [normStep_skip S h0] at hx
      exact hS x hx
    · by_cases h2 : s = ['.', '.']
      · subst h2
        cases S with
        | nil =>
          rw [normStep_dotdot_nil] at hx
          simp at hx
        | cons top rest =>
          by_cases htop : top = ['.', '.']
          · subst htop
            rw [normStep_dotdot_dotdot] at hx
            simp only [Bool.false_eq_true, if_false] at hx
            exact hS x hx
          · rw [normStep_dotdot_pop htop] at hx
            exact hS x (List.mem_cons_of_mem top hx)
      · rw [normStep_push S h0 h2] at hx
        rcases List.mem_cons.mp hx with rfl | hx2
        · exact h2
        · exact hS x hx2

theorem foldl_normStep_clean :
    ∀ (l : List Str) (a : Bool) (S : List Str),
      (∀ e ∈ l, e ≠ [] ∧ e ≠ ['.'] ∧ e ≠ ['.', '.']) →
      List.foldl (normStep a) S l = l.reverse ++ S := by
  intro l
  induction l with
  | nil => intro a S _; rfl
  | cons s t ih =>
    intro a S hl
    rw [List.foldl_cons]
    have hs := hl s (List.mem_cons_self s t)
    rw [normStep_push S (by
        push_neg
        exact ⟨hs.1, hs.2.1⟩) hs.2.2]
    rw [ih a (s :: S) (fun e he => hl e (List.mem_cons_of_mem s he))]
    simp

theorem foldl_normStep_filter :
    ∀ (l : List Str) (a : Bool) (S : List Str),
      List.foldl (normStep a) S l =
        List.foldl (normStep a) S (l.filter (fun s => !(s == []))) := by
  intro l
  induction l with
  | nil => intro a S; rfl
  | cons s t ih =>
    intro a S
    rw [List.foldl_cons]
    by_cases hs : s = []
    · subst hs
      rw [normStep_skip S (Or.inl rfl)]
      rw [List.filter_cons_of_neg (by simp)]
      exact ih a S
    · rw [List.filter_cons_of_pos (by simp [hs])]
      rw [List.foldl_cons]
      exact ih a (normStep a S s)

theorem normStack_append_single (a : Bool) (x : List Str) (s : Str) :
    normStack a (x ++ [s]) = normStep a (normStack a x) s := by
  unfold normStack
  rw [List.foldl_append]
  rfl

theorem replay :
    ∀ (x : List Str) (S : List Str),
      List.foldl (normStep false) S ((normStack true x).reverse) =
        List.foldl (normStep false) S x := by
  intro x
  induction x using List.reverseRecOn with
  | nil => intro S; rfl
  | append_singleton x s ih =>
    intro S
    rw [List.foldl_append, normStack_append_single]
    by_cases h0 : s = [] ∨ s = ['.']
    · rw [normStep_skip _ h0]
      rw [show List.foldl (normStep false) (List.foldl (normStep false) S x) [s] =
          normStep false (List.foldl (normStep false) S x) s from rfl]
      rw [normStep_skip _ h0]
      exact ih S
    · by_cases h2 : s = ['.', '.']
      · subst h2
        cases hC : normStack true x with
        | nil =>
          rw [normStep_dotdot_nil]
          simp only [if_true]
          have hx : List.foldl (normStep false) S x = S := by
            rw [← ih S, hC]
            rfl
          rw [hx]
          rfl
        | cons c C' =>
          by_cases hc : c = ['.', '.']
          · subst hc
            rw [normStep_dotdot_dotdot]
            simp only [if_true]
            have hrev : (['.', '.'] :: ['.', '.'] :: C').reverse =
                (['.', '.'] :: C').reverse ++ [['.', '.']] := by
              simp
            rw [hrev, List.foldl_append]
            have : List.foldl (normStep false) S ((['.', '.'] :: C').reverse) =
                List.foldl (normStep false) S x := by
              rw [← hC]
              exact ih S
            rw [this]
          · rw [normStep_dotdot_pop hc]
            have hcl : c ≠ [] ∧ c ≠ ['.'] :=
              normStack_mem (hC ▸ List.mem_cons_self c C')
            have hx : List.foldl (normStep false) S x =
                c :: List.foldl (normStep false) S C'.reverse := by
              rw [← ih S, hC]
              rw [show (c :: C').reverse = C'.reverse ++ [c] from by simp]
              rw [List.foldl_append]
              rw [show List.foldl (normStep false)
                  (List.foldl (normStep false) S C'.reverse) [c] =
                  normStep false (List.foldl (normStep false) S C'.reverse) c
                from rfl]
              rw [normStep_push _ (by push_neg; exact hcl) hc]
            rw [show List.foldl (normStep false)
                (List.foldl (normStep false) S x) [['.', '.']] =
                normStep false (List.foldl (normStep false) S x) ['.', '.']
              from rfl]
            rw [hx, normStep_dotdot_pop hc]
      · rw [normStep_push _ h0 h2]
        rw [show (s :: normStack true x).reverse =
            (normStack true x).reverse ++ [s] from by simp]
        rw [List.foldl_append, ih S]

theorem normStack_false_facts {y : Str} {e : Str}
    (he : e ∈ normStack false (splitSlash y)) :
    e ≠ [] ∧ e ≠ ['.'] ∧ e ≠ ['.', '.'] ∧ '/' ∉ e := by
  have hdd := foldl_normStep_no_dotdot (splitSlash y) [] (by intro x hx; cases hx)
    e he
  rcases foldl_normStep_mem (splitSlash y) false [] e he with h | h | h
  · cases h
  · exact ⟨h.2.1, h.2.2, hdd, splitSlash_no_slash y e h.1⟩
  · exact absurd h hdd

theorem normStack_true_facts {y : Str} {e : Str}
    (he : e ∈ normStack true (splitSlash y)) :
    e ≠ [] ∧ '/' ∉ e := by
  rcases foldl_normStep_mem (splitSlash y) true [] e he with h | h | h
  · cases h
  · exact ⟨h.2.1, splitSlash_no_slash y e h.1⟩
  · subst h
    exact ⟨by decide, by decide⟩

theorem intercalSlash_ne_nil {segs : List Str} (h1 : segs ≠ [])
    (h2 : ∀ e ∈ segs, e ≠ []) : intercalSlash segs ≠ [] := by
  cases segs with
  | nil => exact absurd rfl h1
  | cons s t =>
    cases t with
    | nil => exact h2 s (by simp)
    | cons s' t' =>
      show s ++ '/' :: intercalSlash (s' :: t') ≠ []
      simp

theorem intercalSlash_head {s1 : Str} (rest : List Str) (h : s1 ≠ []) :
    (intercalSlash (s1 :: rest)).head? = s1.head? := by
  cases rest with
  | nil => rfl
  | cons s' t' =>
    show (s1 ++ '/' :: intercalSlash (s' :: t')).head? = s1.head?
    cases s1 with
    | nil => exact absurd rfl h
    | cons c cs => rfl

theorem normStack_append (a : Bool) (l1 l2 : List Str) :
    normStack a (l1 ++ l2) = List.foldl (normStep a) (normStack a l1) l2 := by
  unfold normStack
  rw [List.foldl_append]

theorem normStack_cons_nil (a : Bool) (l : List Str) :
    normStack a ([] :: l) = List.foldl (normStep a) [] l := by
  unfold normStack
  rw [List.foldl_cons, normStep_skip _ (Or.inl rfl)]

/-- Resolving a normalized path gives the same stack as resolving the
original path: `posixResolve ∘ posixNormalize = posixResolve`. -/
theorem resStack_normalize (cwd x : Str) :
    resStack cwd (posixNormalize x) = resStack cwd x := by
  by_cases hx : x = []
  · subst hx
    show resStack cwd ['.'] = resStack cwd []
    unfold resStack
    rw [if_neg (by decide), if_neg (by decide)]
    rw [splitSlash_append cwd ['.'], splitSlash_append cwd []]
    rw [normStack_append, normStack_append]
    rw [show splitSlash ['.'] = [['.']] from by decide,
      show splitSlash ([] : Str) = [[]] from rfl]
    simp only [List.foldl_cons, List.foldl_nil]
    rw [normStep_skip _ (Or.inr rfl), normStep_skip _ (Or.inl rfl)]
  · by_cases habs : x.head? = some '/'
    · unfold posixNormalize
      rw [if_neg hx]
      simp only [habs, decide_True, Bool.not_true, if_true]
      by_cases hb : normStack false (splitSlash x) = []
      · rw [hb]
        simp only [List.reverse_nil]
        rw [show intercalSlash ([] : List Str) = [] from rfl, if_pos rfl]
        unfold resStack
        rw [if_pos (by rfl), if_pos habs]
        rw [show splitSlash ['/'] = [[], []] from by decide]
        rw [show normStack false [[], []] = [] from by decide, hb]
      · have hne : intercalSlash (normStack false (splitSlash x)).reverse ≠ [] := by
          refine intercalSlash_ne_nil (by simpa using hb) ?_
          intro e he
          exact (normStack_false_facts (List.mem_reverse.mp he)).1
        rw [if_neg hne]
        have hrec : splitSlash
            (intercalSlash (normStack false (splitSlash x)).reverse) =
            (normStack false (splitSlash x)).reverse := by
          refine splitSlash_intercal _ (by simpa using hb) ?_
          intro s hs
          exact (normStack_false_facts (List.mem_reverse.mp hs)).2.2.2
        have hclean : ∀ e ∈ (normStack false (splitSlash x)).reverse,
            e ≠ [] ∧ e ≠ ['.'] ∧ e ≠ ['.', '.'] := by
          intro e he
          have := normStack_false_facts (List.mem_reverse.mp he)
          exact ⟨this.1, this.2.1, this.2.2.1⟩
        by_cases htr : x.getLast? = some '/'
        · rw [if_pos htr]
          unfold resStack
          rw [if_pos (by simp), if_pos habs]
          rw [show ('/' :: intercalSlash
              (normStack false (splitSlash x)).reverse) ++ ['/'] =
              ('/' :: intercalSlash (normStack false (splitSlash x)).reverse) ++
                '/' :: [] from rfl]
          rw [splitSlash_append, splitSlash_cons_slash, hrec]
          rw [normStack_append, normStack_cons_nil]
          rw [foldl_normStep_clean _ false [] hclean]
          rw [show splitSlash ([] : Str) = [[]] from rfl]
          rw [show List.foldl (normStep false)
              ((normStack false (splitSlash x)).reverse.reverse ++ []) [[]] =
              normStep false
                ((normStack false (splitSlash x)).reverse.reverse ++ []) []
            from rfl]
          rw [normStep_skip _ (Or.inl rfl)]
          simp
        · rw [if_neg htr]
          simp only [List.append_nil]
          unfold resStack
          rw [if_pos (by rfl), if_pos habs]
          rw [splitSlash_cons_slash, hrec, normStack_cons_nil]
          rw [foldl_normStep_clean _ false [] hclean]
          simp
    · have hdec : decide (x.head? = some '/') = false := decide_eq_false habs
      unfold posixNormalize
      rw [if_neg hx]
      simp only [hdec, Bool.not_false, if_neg habs]
      by_cases hb : normStack true (splitSlash x) = []
      · rw [hb]
        simp only [List.reverse_nil]
        rw [show intercalSlash ([] : List Str) = [] from rfl, if_pos rfl]
        by_cases htr : x.getLast? = some '/'
        · rw [if_pos htr]
          unfold resStack
          rw [if_neg (by decide), if_neg habs]
          rw [splitSlash_append cwd ['.', '/'], splitSlash_append cwd x]
          rw [normStack_append, normStack_append]
          rw [show splitSlash ['.', '/'] = [['.'], []] from by decide]
          simp only [List.foldl_cons, List.foldl_nil]
          rw [normStep_skip _ (Or.inr rfl), normStep_skip _ (Or.inl rfl)]
          rw [← replay (splitSlash x) (normStack false (splitSlash cwd)), hb]
          rfl
        · rw [if_neg htr]
          unfold resStack
          rw [if_neg (by decide), if_neg habs]
          rw [splitSlash_append cwd ['.'], splitSlash_append cwd x]
          rw [normStack_append, normStack_append]
          rw [show splitSlash ['.'] = [['.']] from by decide]
          simp only [List.foldl_cons, List.foldl_nil]
          rw [normStep_skip _ (Or.inr rfl)]
          rw [← replay (splitSlash x) (normStack false (splitSlash cwd)), hb]
          rfl
      · have hne : intercalSlash (normStack true (splitSlash x)).reverse ≠ [] := by
          refine intercalSlash_ne_nil (by simpa using hb) ?_
          intro e he
          exact (normStack_true_facts (List.mem_reverse.mp he)).1
        rw [if_neg hne]
        have hrec : splitSlash
            (intercalSlash (normStack true (splitSlash x)).reverse) =
            (normStack true (splitSlash x)).reverse := by
          refine splitSlash_intercal _ (by simpa using hb) ?_
          intro s hs
          exact (normStack_true_facts (List.mem_reverse.mp hs)).2
        have hheadI : ¬((intercalSlash
            (normStack true (splitSlash x)).reverse).head? = some '/') := by
          cases hrev : (normStack true (splitSlash x)).reverse with
          | nil =>
            simp at hrev
            exact absurd hrev hb
          | cons s1 rest =>
            have hs1 : s1 ∈ normStack true (splitSlash x) :=
              List.mem_reverse.mp (by rw [hrev]; exact List.mem_cons_self s1 rest)
            have hf := normStack_true_facts hs1
            rw [intercalSlash_head rest hf.1]
            intro hc
            exact hf.2 (by
              cases s1 with
              | nil => exact absurd rfl hf.1
              | cons c cs =>
                simp at hc
                subst hc
                exact List.mem_cons_self '/' cs)
        by_cases htr : x.getLast? = some '/'
        · rw [if_pos htr]
          have hhead2 : ¬(((intercalSlash
              (normStack true (splitSlash x)).reverse) ++ ['/']).head? =
              some '/') := by
            cases hi : intercalSlash (normStack true (splitSlash x)).reverse with
            | nil => exact absurd hi hne
            | cons a l =>
              rw [hi] at hheadI
              simpa using hheadI
          unfold resStack
          rw [if_neg hhead2]
          rw [show (intercalSlash (normStack true (splitSlash x)).reverse ++
              ['/']) = (intercalSlash (normStack true (splitSlash x)).reverse ++
              '/' :: []) from rfl]
          rw [show cwd ++ '/' :: (intercalSlash
              (normStack true (splitSlash x)).reverse ++ '/' :: []) =
              (cwd ++ '/' :: intercalSlash
                (normStack true (splitSlash x)).reverse) ++ '/' :: []
            from by simp]
          rw [splitSlash_append, splitSlash_append, hrec]
          rw [show splitSlash ([] : Str) = [[]] from rfl]
          rw [show (splitSlash cwd ++ (normStack true (splitSlash x)).reverse) ++
              [[]] = splitSlash cwd ++
                ((normStack true (splitSlash x)).reverse ++ [[]]) from by simp]
          rw [normStack_append]
          rw [List.foldl_append]
          simp only [List.foldl_cons, List.foldl_nil]
          rw [normStep_skip _ (Or.inl rfl)]
          rw [replay (splitSlash x) (normStack false (splitSlash cwd))]
          rw [if_neg habs, splitSlash_append cwd x, normStack_append]
        · rw [if_neg htr]
          simp only [List.append_nil]
          unfold resStack
          rw [if_neg hheadI]
          rw [splitSlash_append, hrec, normStack_append]
          rw [replay (splitSlash x) (normStack false (splitSlash cwd))]
          rw [if_neg habs, splitSlash_append cwd x, normStack_append]

theorem resStack_mem_facts (cwd q : Str) :
    ∀ e ∈ resStack cwd q, e ≠ [] ∧ e ≠ ['.'] ∧ e ≠ ['.', '.'] ∧ '/' ∉ e :=
  fun _ he => normStack_false_facts he

theorem isCleanSeg_props {s : Str} (hs : isCleanSeg s = true) :
    s ≠ [] ∧ '/' ∉ s ∧ s ≠ ['.'] ∧ s ≠ ['.', '.'] := by
  simpa [isCleanSeg] using hs

theorem resStack_join_seg (cwd q s : Str) (hs : isCleanSeg s = true) :
    resStack cwd (posixJoin q s) = s :: resStack cwd q := by
  obtain ⟨hs1, hs2, hs3, hs4⟩ := isCleanSeg_props hs
  by_cases hq : q = []
  · subst hq
    rw [show posixJoin [] s = posixNormalize s from by
      simp [posixJoin, hs1]]
    rw [resStack_normalize]
    have hsh : ¬(s.head? = some '/') := by
      cases s with
      | nil => exact absurd rfl hs1
      | cons c cs =>
        simp only [List.head?_cons, Option.some.injEq]
        intro hc
        subst hc
        exact hs2 (List.mem_cons_self '/' cs)
    unfold resStack
    rw [if_neg hsh, if_neg (by decide)]
    rw [splitSlash_append cwd s, splitSlash_append cwd []]
    rw [normStack_append, normStack_append]
    rw [splitSlash_single s hs2]
    rw [show splitSlash ([] : Str) = [[]] from rfl]
    simp only [List.foldl_cons, List.foldl_nil]
    rw [normStep_skip _ (Or.inl rfl)]
    rw [normStep_push _ (by push_neg; exact ⟨hs1, hs3⟩) hs4]
  · rw [show posixJoin q s = posixNormalize (q ++ '/' :: s) from by
      simp [posixJoin, hq, hs1]]
    rw [resStack_normalize]
    unfold resStack
    by_cases hqh : q.head? = some '/'
    · have hh : (q ++ '/' :: s).head? = some '/' := by
        cases q with
        | nil => exact absurd rfl hq
        | cons c cs => simpa using hqh
      rw [if_pos hh, if_pos hqh]
      rw [splitSlash_append q s, normStack_append]
      rw [splitSlash_single s hs2]
      simp only [List.foldl_cons, List.foldl_nil]
      rw [normStep_push _ (by push_neg; exact ⟨hs1, hs3⟩) hs4]
    · have hh : ¬((q ++ '/' :: s).head? = some '/') := by
        cases q with
        | nil => exact absurd rfl hq
        | cons c cs => simpa using hqh
      rw [if_neg hh, if_neg hqh]
      rw [show cwd ++ '/' :: (q ++ '/' :: s) = (cwd ++ '/' :: q) ++ '/' :: s
        from by simp]
      rw [splitSlash_append, normStack_append, splitSlash_single s hs2]
      simp only [List.foldl_cons, List.foldl_nil]
      rw [normStep_push _ (by push_neg; exact ⟨hs1, hs3⟩) hs4]

theorem posixResolve_resStack (cwd p : Str) :
    posixResolve cwd p =
      (if resStack cwd p = [] then ['/']
       else '/' :: intercalSlash (resStack cwd p).reverse) := rfl

theorem posixResolve_join_seg (cwd q s : Str) (hs : isCleanSeg s = true) :
    posixResolve cwd (posixJoin q s) = appendSegR (posixResolve cwd q) s := by
  rw [posixResolve_resStack, posixResolve_resStack, resStack_join_seg cwd q s hs]
  cases hst : resStack cwd q with
  | nil =>
    rw [if_neg (by simp), if_pos rfl]
    unfold appendSegR
    rw [if_pos rfl]
    rfl
  | cons a l =>
    have hnil : intercalSlash ((a :: l).reverse) ≠ [] := by
      refine intercalSlash_ne_nil (by simp) ?_
      intro e he
      exact (resStack_mem_facts cwd q e
        (hst ▸ List.mem_reverse.mp he)).1
    rw [if_neg (by simp), if_neg (by simp)]
    unfold appendSegR
    rw [if_neg (by
      intro hc
      injection hc with _ hc2
      exact hnil hc2)]
    rw [show (s :: a :: l).reverse = (a :: l).reverse ++ [s] from by simp]
    rw [intercalSlash_append _ [s] (by simp) (by simp)]
    rfl

theorem posixResolve_shape (cwd p : Str) :
    posixResolve cwd p = ['/'] ∨
      ∃ t, posixResolve cwd p = '/' :: t ∧ t ≠ [] := by
  rw [posixResolve_resStack]
  by_cases h : resStack cwd p = []
  · rw [if_pos h]
    exact Or.inl rfl
  · rw [if_neg h]
    refine Or.inr ⟨_, rfl, ?_⟩
    refine intercalSlash_ne_nil (by simpa using h) ?_
    intro e he
    exact (resStack_mem_facts cwd p e (List.mem_reverse.mp he)).1

theorem posixResolve_ne_nil (cwd p : Str) : posixResolve cwd p ≠ [] := by
  rcases posixResolve_shape cwd p with h | ⟨t, h, _⟩ <;> rw [h] <;> simp

theorem isPathUnderRoot_iff (cwd f r : Str) :
    isPathUnderRoot cwd f r = true ↔
      posixResolve cwd f = posixResolve cwd r ∨
        ((posixResolve cwd r) <+: (posixResolve cwd f) ∧
          ((posixResolve cwd r).getLast? = some '/' ∨
            (posixResolve cwd f)[(posixResolve cwd r).length]? = some '/')) := by
  unfold isPathUnderRoot
  simp only [Bool.or_eq_true, Bool.and_eq_true, beq_iff_eq,
    List.isPrefixOf_iff_prefix]

theorem isPathUnderRoot_append_seg (cwd q R s : Str)
    (hs : isCleanSeg s = true)
    (h : isPathUnderRoot cwd q R = true) :
    isPathUnderRoot cwd (posixJoin q s) R = true := by
  rw [isPathUnderRoot_iff] at h ⊢
  rw [posixResolve_join_seg cwd q s hs]
  rcases h with h1 | ⟨⟨t, ht⟩, hdisj⟩
  · rw [h1]
    unfold appendSegR
    by_cases hroot : posixResolve cwd R = ['/']
    · rw [if_pos hroot]
      refine Or.inr ⟨⟨s, by rw [hroot]; rfl⟩, Or.inl (by rw [hroot]; rfl)⟩
    · rw [if_neg hroot]
      refine Or.inr ⟨⟨'/' :: s, rfl⟩, Or.inr ?_⟩
      rw [List.getElem?_append_right (le_refl _)]
      simp
  · unfold appendSegR
    by_cases hnp : posixResolve cwd q = ['/']
    · rw [if_pos hnp]
      have hrne : posixResolve cwd R ≠ [] := posixResolve_ne_nil cwd R
      have hR : posixResolve cwd R = ['/'] := by
        rw [hnp] at ht
        cases hc : posixResolve cwd R with
        | nil => exact absurd hc hrne
        | cons a l =>
          rw [hc] at ht
          injection ht with h1 h2
          subst h1
          rcases List.append_eq_nil.mp h2 with ⟨hl, _⟩
          rw [hl]
      refine Or.inr ⟨⟨s, by rw [hR]; rfl⟩, Or.inl (by rw [hR]; rfl)⟩
    · rw [if_neg hnp]
      refine Or.inr ⟨⟨t ++ '/' :: s, by rw [← List.append_assoc, ht]⟩, ?_⟩
      rcases hdisj with hl | hr
      · exact Or.inl hl
      · right
        rw [← ht] at hr
        rw [← ht, List.append_assoc]
        rw [List.getElem?_append_right (le_refl _)] at hr
        rw [List.getElem?_append_right (le_refl _)]
        simp only [Nat.sub_self] at hr ⊢
        cases t with
        | nil => simp
        | cons c t' =>
          simp only [List.getElem?_cons_zero, Option.some.injEq] at hr
          subst hr
          simp

theorem isPathUnderRoot_self (cwd R : Str) :
    isPathUnderRoot cwd R R = true := by
  unfold isPathUnderRoot
  simp

theorem isPathUnderRoot_root_seg (cwd R s : Str)
    (hs : isCleanSeg s = true) :
    isPathUnderRoot cwd (posixJoin R s) R = true :=
  isPathUnderRoot_append_seg cwd R R s hs (isPathUnderRoot_self cwd R)

theorem consHeadW_nil_splitSlash (z : Str) :
    consHeadW [] (splitSlash z) = splitSlash z := by
  cases hsz : splitSlash z with
  | nil => exact absurd hsz (splitSlash_ne_nil z)
  | cons h t => simp [consHeadW]

theorem consHeadW_splitSlash_cons {a : Char} (ha : a ≠ '/')
    (w z : Str) :
    consHeadW w (splitSlash (a :: z)) = consHeadW (w ++ [a]) (splitSlash z) := by
  cases hsz : splitSlash z with
  | nil => exact absurd hsz (splitSlash_ne_nil z)
  | cons h t =>
    simp only [splitSlash, if_neg ha, hsz, consHeadW]
    simp

theorem foldl_splitSlash_collapse :
    ∀ (y : Str) (S : List Str) (w : Str),
      List.foldl (normStep false) S
          (consHeadW w (splitSlash (collapseSlashes y))) =
        List.foldl (normStep false) S (consHeadW w (splitSlash y)) := by
  intro y
  induction y with
  | nil => intro S w; rfl
  | cons a t ih =>
    intro S w
    cases t with
    | nil => rfl
    | cons b r =>
      simp only [collapseSlashes]
      split
      · rename_i hab
        rw [ih S w]
        obtain ⟨ha, hb⟩ := hab
        subst ha
        subst hb
        simp only [splitSlash, if_true, consHeadW, List.append_nil,
          List.foldl_cons]
        rw [normStep_skip _ (Or.inl rfl)]
      · rename_i hab
        by_cases ha : a = '/'
        · subst ha
          simp only [splitSlash, if_true, consHeadW, List.append_nil,
            List.foldl_cons]
          rw [← consHeadW_nil_splitSlash (collapseSlashes (b :: r)),
            ih (normStep false S w) [],
            consHeadW_nil_splitSlash]
          rfl
        · rw [consHeadW_splitSlash_cons ha w (collapseSlashes (b :: r)),
            consHeadW_splitSlash_cons ha w (b :: r)]
          exact ih S (w ++ [a])

theorem foldl_normStep_collapse (y : Str) (S : List Str) :
    List.foldl (normStep false) S (splitSlash (collapseSlashes y)) =
      List.foldl (normStep false) S (splitSlash y) := by
  have h := foldl_splitSlash_collapse y S []
  rwa [consHeadW_nil_splitSlash, consHeadW_nil_splitSlash] at h

theorem resStack_nil (cwd : Str) :
    resStack cwd [] = normStack false (splitSlash cwd) := by
  unfold resStack
  rw [if_neg (by simp)]
  rw [splitSlash_append cwd [], normStack_append]
  rfl

theorem resStack_rel {u : Str} (cwd : Str) (hu : ¬(u.head? = some '/')) :
    resStack cwd u =
      List.foldl (normStep false) (normStack false (splitSlash cwd))
        (splitSlash u) := by
  unfold resStack
  rw [if_neg hu, splitSlash_append, normStack_append]

theorem resStack_abs {u : Str} (cwd : Str) (hu : u.head? = some '/') :
    resStack cwd u = normStack false (splitSlash u) := by
  unfold resStack
  rw [if_pos hu]

theorem resStack_join_foldl (cwd R u : Str) (hu : ¬(u.head? = some '/')) :
    resStack cwd (posixJoin R u) =
      List.foldl (normStep false) (resStack cwd R) (splitSlash u) := by
  by_cases hR : R = []
  · subst hR
    by_cases huq : u = []
    · subst huq
      rw [show posixJoin [] [] = ['.'] from rfl]
      rw [resStack_rel cwd (by decide), resStack_nil]
      rfl
    · rw [show posixJoin [] u = posixNormalize u from by simp [posixJoin, huq]]
      rw [resStack_normalize]
      rw [resStack_rel cwd hu, resStack_nil]
  · by_cases huq : u = []
    · subst huq
      rw [show posixJoin R [] = posixNormalize R from by simp [posixJoin, hR]]
      rw [resStack_normalize]
      rw [show splitSlash ([] : Str) = [[]] from rfl]
      simp only [List.foldl_cons, List.foldl_nil]
      rw [normStep_skip _ (Or.inl rfl)]
    · rw [show posixJoin R u = posixNormalize (R ++ '/' :: u) from by
        simp [posixJoin, hR, huq]]
      rw [resStack_normalize]
      by_cases hRh : R.head? = some '/'
      · have hh : (R ++ '/' :: u).head? = some '/' := by
          cases R with
          | nil => exact absurd rfl hR
          | cons c cs => simpa using hRh
        rw [resStack_abs cwd hh, resStack_abs cwd hRh]
        rw [splitSlash_append, normStack_append]
      · have hh : ¬((R ++ '/' :: u).head? = some '/') := by
          cases R with
          | nil => exact absurd rfl hR
          | cons c cs => simpa using hRh
        rw [resStack_rel cwd hh, resStack_rel cwd hRh]
        rw [splitSlash_append R u, List.foldl_append]

theorem resStack_resolveStatic_norm (cwd R p : Str) :
    resStack cwd (resolveStaticPath R (normalizeUrlPath p)) =
      resStack cwd (resolveStaticPath R p) := by
  unfold resolveStaticPath
  rw [resStack_normalize, resStack_normalize]
  have hu : ¬((p.dropWhile (· = '/')).head? = some '/') :=
    fun hc => dropWhile_head_ne p '/' hc rfl
  have hu' : ¬(((normalizeUrlPath p).dropWhile (· = '/')).head? = some '/') :=
    fun hc => dropWhile_head_ne (normalizeUrlPath p) '/' hc rfl
  rw [resStack_join_foldl cwd R _ hu', resStack_join_foldl cwd R _ hu]
  by_cases hp : p = [] ∨ p = ['/']
  · rw [show normalizeUrlPath p = ['/'] from by
      unfold normalizeUrlPath; rw [if_pos hp]]
    rcases hp with h | h <;> subst h <;> rfl
  · rw [show normalizeUrlPath p =
        (if ('/' :: collapseSlashes (p.dropWhile (· = '/'))).length > 1 ∧
            ('/' :: collapseSlashes (p.dropWhile (· = '/'))).getLast? = some '/'
         then ('/' :: collapseSlashes (p.dropWhile (· = '/'))).dropLast
         else '/' :: collapseSlashes (p.dropWhile (· = '/'))) from by
      unfold normalizeUrlPath; rw [if_neg hp]]
    by_cases huq : p.dropWhile (· = '/') = []
    · rw [huq]
      rfl
    · have hC : collapseSlashes (p.dropWhile (· = '/')) ≠ [] :=
        collapse_ne_nil huq
      have hCh : ¬((collapseSlashes (p.dropWhile (· = '/'))).head? = some '/') := by
        rw [collapse_head?]
        exact hu
      by_cases htr : ('/' :: collapseSlashes (p.dropWhile (· = '/'))).length > 1 ∧
          ('/' :: collapseSlashes (p.dropWhile (· = '/'))).getLast? = some '/'
      · rw [if_pos htr]
        obtain ⟨hlen, hlast⟩ := htr
        rw [getLast?_cons_ne_nil hC] at hlast
        have hg : (collapseSlashes (p.dropWhile (· = '/'))).getLast hC = '/' := by
          have he := List.getLast?_eq_getLast
            (collapseSlashes (p.dropWhile (· = '/'))) hC
          rw [he] at hlast
          exact Option.some.injEq _ _ ▸ hlast.symm ▸ rfl
        have hsplit : collapseSlashes (p.dropWhile (· = '/')) =
            (collapseSlashes (p.dropWhile (· = '/'))).dropLast ++ ['/'] := by
          conv_lhs => rw [← List.dropLast_append_getLast hC]
          rw [hg]
        have hD : (collapseSlashes (p.dropWhile (· = '/'))).dropLast ≠ [] := by
          intro h0
          rw [h0] at hsplit
          rw [hsplit] at hCh
          exact hCh rfl
        have hDh : ¬(((collapseSlashes (p.dropWhile (· = '/'))).dropLast).head? =
            some '/') := by
          intro h0
          apply hCh
          rw [hsplit]
          cases hd : (collapseSlashes (p.dropWhile (· = '/'))).dropLast with
          | nil => exact absurd hd hD
          | cons a l =>
            rw [hd] at h0
            simp only [List.head?_cons, Option.some.injEq] at h0
            subst h0
            rfl
        rw [dropLast_cons_ne_nil hC]
        rw [show (('/' :: (collapseSlashes
              (p.dropWhile (· = '/'))).dropLast).dropWhile (· = '/')) =
            (collapseSlashes (p.dropWhile (· = '/'))).dropLast from by
          rw [List.dropWhile_cons, if_pos (by decide),
            dropWhile_of_head_ne hDh]]
        rw [← foldl_normStep_collapse (p.dropWhile (· = '/'))]
        conv_rhs => rw [hsplit]
        rw [show (collapseSlashes (p.dropWhile (· = '/'))).dropLast ++ ['/'] =
            (collapseSlashes (p.dropWhile (· = '/'))).dropLast ++ '/' :: []
          from rfl]
        rw [splitSlash_append, List.foldl_append]
        rfl
      · rw [if_neg htr]
        rw [show (('/' :: collapseSlashes
              (p.dropWhile (· = '/'))).dropWhile (· = '/')) =
            collapseSlashes (p.dropWhile (· = '/')) from by
          rw [List.dropWhile_cons, if_pos (by decide),
            dropWhile_of_head_ne hCh]]
        exact foldl_normStep_collapse (p.dropWhile (· = '/')) _

theorem isPathUnderRoot_congr {cwd f g : Str} (R : Str)
    (h : resStack cwd f = resStack cwd g) :
    isPathUnderRoot cwd f R = isPathUnderRoot cwd g R := by
  unfold isPathUnderRoot
  rw [posixResolve_resStack cwd f, posixResolve_resStack cwd g, h]

theorem isPathUnderRoot_resolveStatic_norm (cwd R p : Str) :
    isPathUnderRoot cwd (resolveStaticPath R (normalizeUrlPath p)) R =
      isPathUnderRoot cwd (resolveStaticPath R p) R :=
  isPathUnderRoot_congr R (resStack_resolveStatic_norm cwd R p)

theorem serveDirectory_accessed (cwd : Str) (fs : FS) (dirPath urlPath R : Str)
    (hwf : FS.WF fs) (hd : isPathUnderRoot cwd dirPath R = true) :
    ∀ q ∈ (serveDirectory fs dirPath urlPath).2,
      isPathUnderRoot cwd q R = true := by
  intro q hq
  cases hrd : fs.readdir dirPath with
  | error e =>
    unfold serveDirectory at hq
    rw [hrd] at hq
    simp only [List.mem_singleton] at hq
    subst hq
    exact hd
  | ok entries =>
    unfold serveDirectory at hq
    rw [hrd] at hq
    simp only [List.mem_cons, List.mem_map] at hq
    rcases hq with rfl | ⟨e, he, rfl⟩
    · exact hd
    · exact isPathUnderRoot_append_seg cwd dirPath R e
        (hwf dirPath entries hrd e he) hd

theorem handler_accessed_under (cwd : Str) (fs : FS) (R p method : Str)
    (opts : HandlerOptions) (hwf : FS.WF fs) :
    ∀ q ∈ (handler cwd fs R p method opts).2,
      isPathUnderRoot cwd q R = true := by
  intro q hq
  simp only [handler] at hq
  split at hq
  · simp at hq
  · split at hq
    · simp at hq
    · rename_i hnotnot
      have hunder : isPathUnderRoot cwd
          (resolveStaticPath R (normalizeUrlPath p)) R = true :=
        of_not_not hnotnot
      have hidx : isPathUnderRoot cwd
          (posixJoin (resolveStaticPath R (normalizeUrlPath p))
            ("index.html".data)) R = true :=
        isPathUnderRoot_append_seg cwd _ R _ (by decide) hunder
      have hspa : isPathUnderRoot cwd (posixJoin R ("index.html".data))
          R = true :=
        isPathUnderRoot_root_seg cwd R _ (by decide)
      split at hq
      · -- fs.stat succeeded
        split at hq
        · -- regular file
          simp only [List.mem_cons] at hq
          rcases hq with rfl | hq
          · exact hunder
          · split at hq
            · simp only [List.mem_singleton] at hq
              subst hq
              exact hunder
            · simp at hq
        · split at hq
          · -- directory
            split at hq
            · -- no trailing slash: redirect
              simp only [List.mem_singleton] at hq
              subst hq
              exact hunder
            · split at hq
              · -- index.html exists
                split at hq
                · -- stat of index.html succeeded
                  simp only [List.mem_cons] at hq
                  rcases hq with rfl | rfl | rfl | hq
                  · exact hunder
                  · exact hidx
                  · exact hidx
                  · split at hq
                    · simp only [List.mem_singleton] at hq
                      subst hq
                      exact hidx
                    · simp at hq
                · -- stat of index.html failed after existsSync
                  split at hq
                  · simp only [List.mem_cons] at hq
                    rcases hq with rfl | rfl | rfl | hq
                    · exact hunder
                    · exact hidx
                    · exact hidx
                    · exact serveDirectory_accessed cwd fs _ _ R hwf hunder q hq
                  · simp only [List.mem_cons, List.not_mem_nil, or_false] at hq
                    rcases hq with rfl | rfl | rfl
                    · exact hunder
                    · exact hidx
                    · exact hidx
              · -- no index.html
                split at hq
                · simp only [List.mem_cons] at hq
                  rcases hq with rfl | rfl | hq
                  · exact hunder
                  · exact hidx
                  · exact serveDirectory_accessed cwd fs _ _ R hwf hunder q hq
                · simp only [List.mem_cons, List.not_mem_nil, or_false] at hq
                  rcases hq with rfl | rfl
                  · exact hunder
                  · exact hidx
          · -- neither file nor directory
            simp only [List.mem_singleton] at hq
            subst hq
            exact hunder
      · -- fs.stat failed
        split at hq
        · -- SPA fallback
          split at hq
          · split at hq
            · simp only [List.mem_cons] at hq
              rcases hq with rfl | rfl | rfl | hq
              · exact hunder
              · exact hspa
              · exact hspa
              · split at hq
                · simp only [List.mem_singleton] at hq
                  subst hq
                  exact hspa
                · simp at hq
            · simp only [List.mem_cons, List.not_mem_nil, or_false] at hq
              rcases hq with rfl | rfl | rfl
              · exact hunder
              · exact hspa
              · exact hspa
          · simp only [List.mem_cons, List.not_mem_nil, or_false] at hq
            rcases hq with rfl | rfl
            · exact hunder
            · exact hspa
        · simp only [List.mem_singleton] at hq
          subst hq
          exact hunder

theorem handler_403 (cwd : Str) (fs : FS) (R p method : Str)
    (opts : HandlerOptions)
    (hm : method = "GET".data ∨ method = "HEAD".data)
    (h : ¬(isPathUnderRoot cwd (resolveStaticPath R (normalizeUrlPath p))
      R = true)) :
    handler cwd fs R p method opts = (resp403, []) := by
  simp only [handler]
  rw [if_neg (not_not_intro hm), if_pos h]

/-- **C1.** If the requested URL path escapes the root (that is,
`isPathUnderRoot cwd (resolveStaticPath R p) R` is `false`), the handler
answers 403 Forbidden and touches no filesystem path at all; and in every
case, every path the handler hands to a filesystem operation (its second,
instrumentation component) is contained under the root.  `FS.WF fs` states
that `readdir` returns bare entry names (nonempty, no slash, not `.` or
`..`), as the real `readdirSync` does. -/
theorem handler_escape_forbidden_and_containment
    (cwd : Str) (fs : FS) (R p method : Str) (opts : HandlerOptions)
    (hwf : FS.WF fs)
    (hm : method = "GET".data ∨ method = "HEAD".data) :
    (isPathUnderRoot cwd (resolveStaticPath R p) R = false →
      handler cwd fs R p method opts = (resp403, [])) ∧
    (∀ q ∈ (handler cwd fs R p method opts).2,
      isPathUnderRoot cwd q R = true) := by
  constructor
  · intro hesc
    apply handler_403 cwd fs R p method opts hm
    rw [isPathUnderRoot_resolveStatic_norm, hesc]
    simp
  · exact handler_accessed_under cwd fs R p method opts hwf

theorem handler_escape_forbidden_and_containment_witness :
    let fs : FS :=
      { stat := fun _ => Except.error ("ENOENT".data),
        readdir := fun _ => Except.error ("ENOENT".data),
        readFile := fun _ => [] }
    FS.WF fs ∧
      ("GET".data = "GET".data ∨ "GET".data = "HEAD".data) ∧
      isPathUnderRoot ("/cwd".data)
        (resolveStaticPath ("/r".data) ("/../etc/passwd".data))
        ("/r".data) = false ∧
      ((isPathUnderRoot ("/cwd".data)
          (resolveStaticPath ("/r".data) ("/../etc/passwd".data))
          ("/r".data) = false →
        handler ("/cwd".data) fs ("/r".data) ("/../etc/passwd".data)
          ("GET".data) {} = (resp403, [])) ∧
      (∀ q ∈ (handler ("/cwd".data) fs ("/r".data) ("/../etc/passwd".data)
          ("GET".data) {}).2,
        isPathUnderRoot ("/cwd".data) q ("/r".data) = true)) := by
  intro fs
  refine ⟨(fun p l h => nomatch h), Or.inl rfl, by decide, ?_⟩
  exact handler_escape_forbidden_and_containment ("/cwd".data) fs
    ("/r".data) ("/../etc/passwd".data) ("GET".data) {}
    (fun p l h => nomatch h) (Or.inl rfl)
